import Mathlib

/-!
A verification development for the `pure19prototype` system-replication tool.

The Python sources under `analyzer/` (`system/system.py`, `system/ubuntu.py`,
`system/centos.py`, `utils.py`) are shallowly embedded below.  Python strings
are Lean `String`s, but every string operation used by the code
(`split`, `rsplit`, `strip`, `in`, `replace`, `startswith`, ...) is
re-implemented over the underlying character list so that all definitions
evaluate inside the kernel.  Python dictionaries are association lists with
insertion-order semantics (updating an existing key keeps its position,
adding a new key appends).  Fallible Python operations (`d[k]`, `l[i]`,
`assert`, iterating `None`) are embedded with `Except`.
-/

/-- The Python exception kinds the embedded code can raise. -/
inductive PyErr where
  | keyError
  | indexError
  | typeError
  | assertionError
deriving DecidableEq, Repr

/-- `SystemAnalyzer.Mode = Enum('Mode', 'dry unversion delete')`. -/
inductive Mode where
  | dry
  | unversion
  | delete
deriving DecidableEq, Repr

/-- A Docker image reference: either the pulled base image `{op_sys}:{version}`
or an image built from the current Dockerfile contents. -/
inductive ImageRef where
  | pulled
  | built (dockerfile : String)
deriving DecidableEq, Repr

instance exceptDecEq {ε α : Type} [DecidableEq ε] [DecidableEq α] :
    DecidableEq (Except ε α) := fun x y =>
  match x, y with
  | .ok a, .ok b => decidable_of_iff (a = b) (by simp)
  | .ok _, .error _ => isFalse (by simp)
  | .error _, .ok _ => isFalse (by simp)
  | .error e, .error f => decidable_of_iff (e = f) (by simp)

/-! ## Character-list string primitives (Python semantics, kernel-computable) -/

/-- `isPre pat l`: `pat` is a leading segment of `l`. -/
def isPre : List Char → List Char → Bool
  | [], _ => true
  | _ :: _, [] => false
  | p :: ps, c :: cs => p == c && isPre ps cs

/-- One left-to-right, non-overlapping scan of Python `s.split(sep)` for a
non-empty separator, with explicit fuel (`fuel ≥ remaining length + 1`). -/
def splitSepGo (pat : List Char) : Nat → List Char → List Char → List (List Char)
  | 0, acc, rem => [acc.reverse ++ rem]
  | fuel + 1, acc, rem =>
    if pat ≠ [] ∧ isPre pat rem then
      acc.reverse :: splitSepGo pat fuel [] (rem.drop pat.length)
    else
      match rem with
      | [] => [acc.reverse]
      | c :: cs => splitSepGo pat fuel (c :: acc) cs

/-- Python `s.split(sep)` for a non-empty separator `sep`. -/
def sSplit (s sep : String) : List String :=
  (splitSepGo sep.data (s.data.length + 1) [] s.data).map String.mk

/-- First occurrence of a non-empty `pat` in `l`, as the pieces before/after. -/
def splitFirstGo (pat : List Char) : List Char → Option (List Char × List Char)
  | [] => none
  | c :: cs =>
    if pat ≠ [] ∧ isPre pat (c :: cs) then some ([], (c :: cs).drop pat.length)
    else (splitFirstGo pat cs).map (fun p => (c :: p.1, p.2))

/-- Split `s` at the first occurrence of `pat` (`none` when absent). -/
def sSplitFirst (s pat : String) : Option (String × String) :=
  (splitFirstGo pat.data s.data).map (fun p => (String.mk p.1, String.mk p.2))

/-- Python `pat in s` (substring containment; the empty string is contained). -/
def sHas (s pat : String) : Bool :=
  pat.data.isEmpty || (sSplitFirst s pat).isSome

/-- Python `s.replace(pat, rep, 1)`: replace the first occurrence only. -/
def sReplaceFirst (s pat rep : String) : String :=
  match sSplitFirst s pat with
  | some p => p.1 ++ rep ++ p.2
  | none => s

/-- Python `s.strip()`: drop leading and trailing whitespace. -/
def sStrip (s : String) : String :=
  String.mk (((s.data.dropWhile Char.isWhitespace).reverse.dropWhile
    Char.isWhitespace).reverse)

/-- Python `s.startswith(pat)`. -/
def sStarts (s pat : String) : Bool := isPre pat.data s.data

/-- Python `s.endswith(pat)`. -/
def sEnds (s pat : String) : Bool := isPre pat.data.reverse s.data.reverse

/-- Drop the last `n` characters of `s`. -/
def sDropRight (s : String) (n : Nat) : String :=
  String.mk (s.data.take (s.data.length - n))

/-- Join with a separator (Python `sep.join(l)`, used to model `rsplit`). -/
def sJoinSep (sep : String) : List String → String
  | [] => ""
  | [x] => x
  | x :: xs => x ++ sep ++ sJoinSep sep xs

/-- Python whitespace `s.split(maxsplit=n)`: skip leading whitespace; take a
word; after `maxsplit` splits keep the remainder (trailing spaces included).
Fuel-recursive; `fuel ≥ length + 1` makes the cutoff unreachable. -/
def pyWordsGo : Nat → Nat → List Char → List (List Char)
  | 0, _, _ => []
  | fuel + 1, maxsplit, s =>
    match s.dropWhile Char.isWhitespace, maxsplit with
    | [], _ => []
    | rest, 0 => [rest]
    | c :: cs, m + 1 =>
      ((c :: cs).takeWhile (fun a => ¬ a.isWhitespace)) ::
        pyWordsGo fuel m ((c :: cs).dropWhile (fun a => ¬ a.isWhitespace))

/-- Python `s.split(maxsplit=m)` (split on whitespace runs). -/
def pyWords (s : String) (maxsplit : Nat) : List String :=
  (pyWordsGo (s.data.length + 1) maxsplit s.data).map String.mk

/-- Python `f"{s}"` lines: `s.split('\n')[:-1]` as used on container logs. -/
def pyLines (s : String) : List String := (sSplit s "\n").dropLast

/-! ## Python dictionaries as insertion-ordered association lists -/

/-- The keys of a dict, in insertion order. -/
def dKeys {α : Type} (d : List (String × α)) : List String := d.map Prod.fst

/-- Python `k in d`. -/
def dHas {α : Type} (d : List (String × α)) (k : String) : Bool :=
  (d.find? (fun e => e.1 == k)).isSome

/-- Python `d.get(k)`-style lookup (first matching entry). -/
def dGet {α : Type} (d : List (String × α)) (k : String) : Option α :=
  (d.find? (fun e => e.1 == k)).map Prod.snd

/-- Python `d[k] = v`: update in place when present, append when new. -/
def dSet {α : Type} (d : List (String × α)) (k : String) (v : α) :
    List (String × α) :=
  if dHas d k then d.map (fun e => if e.1 == k then (k, v) else e)
  else d ++ [(k, v)]

/-- Remove every entry for `k` (the effect of a successful `del d[k]`). -/
def dRemove {α : Type} (d : List (String × α)) (k : String) :
    List (String × α) :=
  d.filter (fun e => ¬ e.1 == k)

/-- Python `del d[k]`: `KeyError` when the key is absent. -/
def dPop {α : Type} (d : List (String × α)) (k : String) :
    Except PyErr (List (String × α)) :=
  if dHas d k then .ok (dRemove d k) else .error .keyError

/-- Python `try: del d[k] except KeyError: pass`. -/
def dPopTry {α : Type} (d : List (String × α)) (k : String) :
    List (String × α) :=
  dRemove d k

/-- Python `d[k]` on the right-hand side: `KeyError` when absent. -/
def dIndex {α : Type} (d : List (String × α)) (k : String) : Except PyErr α :=
  match dGet d k with
  | some v => .ok v
  | none => .error .keyError

/-! ## `utils.group_strings` (analyzer/utils.py lines 40-52) -/

/-- The generator loop of `group_strings`: `curr_string` accumulates
`item + " "`; a batch is yielded whenever `len(curr_string) > char_count`
*before* the next item is appended, and a non-empty leftover is yielded at
the end. -/
def groupStringsGo (char_count : Nat) : List String → String → List String
  | [], curr => if curr = "" then [] else [curr]
  | item :: rest, curr =>
    if char_count < curr.length then
      curr :: groupStringsGo char_count rest (item ++ " ")
    else
      groupStringsGo char_count rest (curr ++ (item ++ " "))

/-- `utils.group_strings(indexable, char_count=100000)`. -/
def group_strings (indexable : List String) (char_count : Nat := 100000) :
    List String :=
  groupStringsGo char_count indexable ""

/-- The space-joined rendering of a batch of items, exactly as `curr_string`
is accumulated by `group_strings`. -/
def batchStr (l : List String) : String :=
  l.foldl (fun acc i => acc ++ (i ++ " ")) ""

/-- The same grouping loop, tracking each batch as its list of items instead
of the accumulated string. -/
def groupItemsGo (char_count : Nat) : List String → List String →
    List (List String)
  | [], curr => if curr = [] then [] else [curr]
  | item :: rest, curr =>
    if char_count < (batchStr curr).length then
      curr :: groupItemsGo char_count rest [item]
    else
      groupItemsGo char_count rest (curr ++ [item])

/-- Item-level view of `group_strings`. -/
def groupItems (indexable : List String) (char_count : Nat) :
    List (List String) :=
  groupItemsGo char_count indexable []

/-- `UbuntuAnalyzer.parse_pkg_line`: `name = line.strip().split('/')[0]`,
`ver = line.strip().split('now ')[1].split(' ')[0]`; the `[1]` raises
`IndexError` when `'now '` does not occur. -/
def ubuntuParsePkgLine (line : String) : Except PyErr (String × String) :=
  match (sSplit (sStrip line) "now ")[1]? with
  | none => .error .indexError
  | some v =>
      .ok ((sSplit (sStrip line) "/").headD "", (sSplit v " ").headD "")

/-- The loop of `UbuntuAnalyzer.parse_all_pkgs`: skip empty lines and lines
matching `WARNING:` or `Listing` at the start; parse the rest, keying the
result dict on package name. -/
def ubuntuParseAllGo : List String → List (String × String) →
    Except PyErr (List (String × String))
  | [], acc => .ok acc
  | line :: rest, acc =>
    if line = "" then ubuntuParseAllGo rest acc
    else if sStarts line "WARNING:" then ubuntuParseAllGo rest acc
    else if sStarts line "Listing" then ubuntuParseAllGo rest acc
    else
      match ubuntuParsePkgLine line with
      | .error e => .error e
      | .ok nv => ubuntuParseAllGo rest (dSet acc nv.1 nv.2)

/-- `UbuntuAnalyzer.parse_all_pkgs`. -/
def ubuntuParseAllPkgs (lines : List String) :
    Except PyErr (List (String × String)) :=
  ubuntuParseAllGo lines []

/-- `name.rsplit(sep='.', maxsplit=1)[0]`: everything before the last dot
(the whole string when there is no dot). -/
def rsplitDotHead (s : String) : String :=
  match sSplit s "." with
  | [] => s
  | [_] => s
  | parts => sJoinSep "." parts.dropLast

/-- `CentosAnalyzer.parse_pkg_line`: tokenize `line.strip().split(maxsplit=2)`;
`[0]`/`[1]` raise `IndexError` on fewer than two tokens; the name drops the
architecture suffix after the last dot; the version is cut at the first `-`
and the epoch prefix before the last `:` is dropped. -/
def centosParsePkgLine (line : String) : Except PyErr (String × String) :=
  match (pyWords (sStrip line) 2)[0]? with
  | none => .error .indexError
  | some t0 =>
    match (pyWords (sStrip line) 2)[1]? with
    | none => .error .indexError
    | some t1 =>
      .ok (rsplitDotHead t0,
        (sSplit ((sSplit t1 "-").headD "") ":").getLastD "")

/-- The loop of `CentosAnalyzer.parse_all_pkgs`: skip lines matching
`Installed Packages` at the start; parse every other line (empty lines
included, which raise). -/
def centosParseAllGo : List String → List (String × String) →
    Except PyErr (List (String × String))
  | [], acc => .ok acc
  | line :: rest, acc =>
    if sStarts line "Installed Packages" then centosParseAllGo rest acc
    else
      match centosParsePkgLine line with
      | .error e => .error e
      | .ok nv => centosParseAllGo rest (dSet acc nv.1 nv.2)

/-- `CentosAnalyzer.parse_all_pkgs`. -/
def centosParseAllPkgs (lines : List String) :
    Except PyErr (List (String × String)) :=
  centosParseAllGo lines []

/-! ## `utils.analyze_dependencies` (analyzer/utils.py lines 55-90)

The networkx graph is `full_g = DiGraph` over the given node set with an edge
`x → y` whenever `y ∈ get_deps_func(x)` and `y` is itself under analysis.
`filtered_pkgs` collects the in-degree-0 nodes and every member of a strongly
connected component of size > 1; the result is `node_set - filtered_pkgs`.
Strong connectivity is computed here as a bounded reachability fixpoint
(`nodes.card + 1` expansion steps), proved below to coincide with the
reflexive-transitive closure of the edge relation. -/

/-- The edge relation of `full_g`:
`x → y` iff both endpoints are analyzed nodes and `y ∈ get_deps_func(x)`. -/
def depEdge (nodes : Finset String) (deps : String → Finset String)
    (x y : String) : Prop :=
  x ∈ nodes ∧ y ∈ nodes ∧ y ∈ deps x

instance depEdgeDec (nodes : Finset String) (deps : String → Finset String)
    (x y : String) : Decidable (depEdge nodes deps x y) := by
  unfold depEdge; infer_instance

/-- One expansion step of forward reachability: add every node with an edge
from the current set. -/
def stepSet (nodes : Finset String) (deps : String → Finset String)
    (s : Finset String) : Finset String :=
  s ∪ nodes.filter (fun y => ∃ x ∈ s, depEdge nodes deps x y)

/-- Forward-reachable set of `n`, saturated after `nodes.card + 1` steps. -/
def reachSet (nodes : Finset String) (deps : String → Finset String)
    (n : String) : Finset String :=
  (stepSet nodes deps)^[nodes.card + 1] {n}

/-- `analyze_dependencies(nodes, get_deps_func)`: the nodes that may be
removed because something else in the set pulls them in — the node set minus
the in-degree-0 nodes and minus all members of size->1 strongly connected
components. -/
def analyze_dependencies (nodes : Finset String)
    (deps : String → Finset String) : Finset String :=
  nodes \
    (nodes.filter (fun n => (nodes.filter (fun x => n ∈ deps x)).card = 0) ∪
      nodes.filter (fun n => ∃ m ∈ nodes.erase n,
        m ∈ reachSet nodes deps n ∧ n ∈ reachSet nodes deps m))

/-- Reachability in `full_g` as a mathematical relation: the
reflexive-transitive closure of the edge relation. -/
def Reaches (nodes : Finset String) (deps : String → Finset String)
    (x y : String) : Prop :=
  Relation.ReflTransGen (depEdge nodes deps) x y

/-- The specification's *necessary* predicate: in-degree zero (no analyzed
package depends on `n`), or membership in a strongly connected component of
size greater than one (some distinct node is mutually reachable with `n`). -/
def NecessaryPkg (nodes : Finset String) (deps : String → Finset String)
    (n : String) : Prop :=
  (∀ x ∈ nodes, n ∉ deps x) ∨
    ∃ m ∈ nodes, m ≠ n ∧ Reaches nodes deps n m ∧ Reaches nodes deps m n

/-- The mutable bucket state of the classification loop. -/
structure FileBuckets where
  modified : Finset String
  added : Finset String
  deleted : Finset String
  verMismatch : Finset String
  seen : Finset String
deriving DecidableEq

/-- The five buckets of the returned report (`data_dict`). -/
structure FileReport where
  added : Finset String
  deleted : Finset String
  modified : Finset String
  verMismatch : Finset String
  unassoc : Finset String
deriving DecidableEq

/-- `pkg in cont_pkgs and self.all_packages[pkg] == cont_pkgs[pkg]`. -/
def versionMatched (contPkgs : List (String × String)) (p ver : String) :
    Bool :=
  match dGet contPkgs p with
  | some cv => ver == cv
  | none => false

/-- The classification tags a file can receive from one package's loop body. -/
inductive FileTag where
  | added
  | deleted
  | modified
  | verMismatch
deriving DecidableEq, Repr

/-- Project a bucket out of the loop state by tag. -/
def bucketOf (st : FileBuckets) : FileTag → Finset String
  | .added => st.added
  | .deleted => st.deleted
  | .modified => st.modified
  | .verMismatch => st.verMismatch

/-- The loop body for one file of one package: mark it seen, then classify by
set membership (and, when the package's versions differ, by the
changed-files probe). -/
def fileStep (vm : Bool) (changed : List String)
    (just_cont shared just_vm : Finset String) (st : FileBuckets)
    (file : String) : FileBuckets :=
  let st := { st with seen := insert file st.seen }
  if vm then
    if file ∈ just_vm then { st with added := insert file st.added }
    else if file ∈ just_cont then { st with deleted := insert file st.deleted }
    else if file ∈ shared then { st with modified := insert file st.modified }
    else st
  else
    if file ∈ just_vm then
      if file ∈ changed then { st with added := insert file st.added }
      else { st with verMismatch := insert file st.verMismatch }
    else if file ∈ just_cont then { st with deleted := insert file st.deleted }
    else if file ∈ shared then
      if file ∈ changed then { st with modified := insert file st.modified }
      else { st with verMismatch := insert file st.verMismatch }
    else st

/-- The classification one package's loop body assigns to a file
(`none` = the file is dropped as unchanged). -/
def fileBranch (vm : Bool) (changed : List String)
    (just_cont shared just_vm : Finset String) (file : String) :
    Option FileTag :=
  if vm then
    if file ∈ just_vm then some .added
    else if file ∈ just_cont then some .deleted
    else if file ∈ shared then some .modified
    else none
  else
    if file ∈ just_vm then
      if file ∈ changed then some .added else some .verMismatch
    else if file ∈ just_cont then some .deleted
    else if file ∈ shared then
      if file ∈ changed then some .modified else some .verMismatch
    else none

/-- The outer loop body: process every file owned by one package. -/
def pkgStep (filesOf : String → List String)
    (contPkgs : List (String × String)) (changedOf : String → List String)
    (just_cont shared just_vm : Finset String) (st : FileBuckets)
    (entry : String × String) : FileBuckets :=
  (filesOf entry.1).foldl
    (fileStep (versionMatched contPkgs entry.1 entry.2) (changedOf entry.1)
      just_cont shared just_vm) st

/-- The full classification loop over `self.all_packages`. -/
def examineCore (allPkgs : List (String × String))
    (filesOf : String → List String) (contPkgs : List (String × String))
    (changedOf : String → List String)
    (just_cont shared just_vm : Finset String) : FileBuckets :=
  allPkgs.foldl (pkgStep filesOf contPkgs changedOf just_cont shared just_vm)
    ⟨∅, ∅, ∅, ∅, ∅⟩

/-- `examine_files_and_packages`: the five-bucket report, with
`files not from packages` computed from the never-seen remainder of the
three input sets. -/
def examine_files_and_packages (allPkgs : List (String × String))
    (filesOf : String → List String) (contPkgs : List (String × String))
    (changedOf : String → List String)
    (just_cont shared just_vm : Finset String) : FileReport :=
  let st := examineCore allPkgs filesOf contPkgs changedOf just_cont shared
    just_vm
  { added := st.added
    deleted := st.deleted
    modified := st.modified
    verMismatch := st.verMismatch
    unassoc := (just_cont \ st.seen) ∪ (just_vm \ st.seen) ∪
      (shared \ st.seen) }

/-- `location.rstrip('/')`. -/
def rstripSlash (s : String) : String :=
  String.mk ((s.data.reverse.dropWhile (fun c => c == '/')).reverse)

/-- `re.compile(location.replace('/', r'\/') + r"\/*").sub('./', place)`:
replace every non-overlapping occurrence of the literal `location` followed
by a greedy run of slashes with `./` (for a location free of other regex
metacharacters).  When `location` is empty the pattern matches at every
position, inserting `./` and collapsing slash runs, exactly as `re.sub`
treats zero-width matches.  Fuel-recursive (`fuel ≥ length + 1`). -/
def subLocGo (loc : List Char) : Nat → List Char → List Char
  | 0, rem => rem
  | fuel + 1, rem =>
    if isPre loc rem then
      if loc.length + ((rem.drop loc.length).takeWhile (fun c => c == '/')).length
          = 0 then
        match rem with
        | [] => ['.', '/']
        | c :: cs => '.' :: '/' :: c :: subLocGo loc fuel cs
      else
        '.' :: '/' :: subLocGo loc fuel
          ((rem.drop loc.length).dropWhile (fun c => c == '/'))
    else
      match rem with
      | [] => []
      | c :: cs => c :: subLocGo loc fuel cs

/-- The `trimmed = regex.sub('./', place)` step of `compare_names`. -/
def pySubLoc (location place : String) : String :=
  String.mk (subLocGo location.data (place.data.length + 1) place.data)

/-- The blocklist loop of `compare_names`: extend `find . -type f ` with a
`! -path` clause for every blocklist entry under `location`. -/
def compareCmd (location : String) (blocklist : List String) : String :=
  blocklist.foldl
    (fun cmd place =>
      if sStarts place location then
        cmd ++ "! -path '" ++ pySubLoc location place ++ "' "
      else cmd)
    "find . -type f "

/-- `SystemAnalyzer.compare_names(location, blocklist)`: iterating
`blocklist` raises `TypeError` when it was left as its default `None`;
otherwise the VM and container file listings are collected (container lines
mentioning `: Permission denied` are ignored, a falsy container output yields
no names) and the three-way split
`(container - vm, vm ∩ container, vm - container)` is returned. -/
def compare_names (location : String) (blocklist : Option (List String))
    (sshLines : String → List String) (contOut : String → Option String) :
    Except PyErr (Finset String × Finset String × Finset String) :=
  match blocklist with
  | none => .error .typeError
  | some bl =>
    let loc := rstripSlash location
    let cmd := compareCmd loc bl
    let vmNames : Finset String :=
      ((sshLines ("cd " ++ loc ++ " && " ++ cmd)).map
        (fun line => sReplaceFirst (sStrip line) "." loc)).toFinset
    let dockerNames : Finset String :=
      match contOut cmd with
      | some s =>
          (((pyLines s).filter (fun l => ¬ sHas l ": Permission denied")).map
            (fun line => sReplaceFirst line "." loc)).toFinset
      | none => ∅
    .ok (dockerNames \ vmNames, vmNames ∩ dockerNames, vmNames \ dockerNames)

/-- The front half of `SystemAnalyzer.analyze_files`: default a falsy
allowlist to `{'/'}` and build `unique[folder] = compare_names(folder,
blocklist)` for every allowlist root (the later hashing and
`examine_files_and_packages` phases consume these splits and are modeled
separately above). -/
def analyze_files_unique (allowlist : Option (List String))
    (blocklist : Option (List String)) (sshLines : String → List String)
    (contOut : String → Option String) :
    Except PyErr
      (List (String × (Finset String × Finset String × Finset String))) :=
  let al := match allowlist with
    | none => ["/"]
    | some l => if l = [] then ["/"] else l
  al.foldlM
    (fun acc folder => do
      let t ← compare_names folder blocklist sshLines contOut
      pure (acc ++ [(folder, t)]))
    []

/-! ## Replica verification engine

`UbuntuAnalyzer.verify_packages` / `_run_fallback` (ubuntu.py lines 155-341)
and the base `SystemAnalyzer.verify_packages` (system.py lines 169-253).
Container and SSH effects are oracles: `exec` maps an install command to the
decoded container logs, `listOut` maps an image reference to the decoded
output of running `LIST_INSTALLED` on it.  The Docker image currently held in
`self.image` is part of the state. -/

/-- The mutable analyzer state used by the Debian-family engine:
`all_packages`, `install_packages` (name → version), `unversion_packages`
(name → new version, `none` encoding Python `False`), and `self.image`. -/
structure UbuntuState where
  opSys : String
  osVersion : String
  all : List (String × String)
  install : List (String × String)
  unversion : List (String × Option String)
  image : ImageRef
deriving DecidableEq

/-- The Dockerfile prelude written by both `verify_packages` and
`_run_fallback` before building the verification image (no install lines —
the installs are attempted by running a container command). -/
def ubuntuPrelude (st : UbuntuState) : String :=
  "FROM " ++ st.opSys ++ ":" ++ st.osVersion ++ "\n" ++
    "ENV DEBIAN_FRONTEND=noninteractive\n" ++ "RUN apt-get update\n"

/-- `UbuntuAnalyzer._assemble_packages`: the version-pinned install line, the
original→substitute comment, and the unversioned install line.  Looking up
`self.all_packages[name]` for a comment raises `KeyError` when the name is
not in `all`. -/
def ubuntuAssemble (st : UbuntuState) :
    Except PyErr (String × String × String) := do
  let specific := st.install.foldl
    (fun acc e => acc ++ e.1 ++ "=" ++ e.2 ++ " ") ""
  let cu ← st.unversion.foldlM
    (fun (acc : String × String) e => do
      let oldVer ← dIndex st.all e.1
      match e.2 with
      | some newVer =>
          pure (acc.1 ++ e.1 ++ ": " ++ oldVer ++ "->" ++ newVer ++ " ",
            acc.2 ++ e.1 ++ "=" ++ newVer ++ " ")
      | none =>
          pure (acc.1 ++ e.1 ++ ": " ++ oldVer ++ "->? ",
            acc.2 ++ e.1 ++ " "))
    ("", "")
  pure (specific, cu.1, cu.2)

/-- `re.findall("E: Unable to locate package (.*)\n", output)`: for every
newline-terminated line, the text after the first occurrence of the marker. -/
def aptMissingPkgs (output : String) : List String :=
  (pyLines output).filterMap
    (fun l => (sSplitFirst l "E: Unable to locate package ").map Prod.snd)

/-- `re.findall("' for '(.*)' was not found\n", output)`: for every
newline-terminated line ending in `' was not found`, the text between the
first `' for '` and that suffix (the greedy group runs to the line's end). -/
def aptMissingVers (output : String) : List String :=
  (pyLines output).filterMap
    (fun l =>
      if sEnds l "' was not found" then
        (sSplitFirst (sDropRight l 15) "' for '").map Prod.snd
      else none)

/-- `re.search("E: ", output)`. -/
def aptHasErr (output : String) : Bool := sHas output "E: "

/-- `install_all = "apt-get install -y --allow-downgrades " + pkg_line +
unv_line`. -/
def ubuntuInstallCmd (pkgLine unvLine : String) : String :=
  "apt-get install -y --allow-downgrades " ++ pkgLine ++ unvLine

/-- ubuntu.py lines 269-341, the tail of `_run_fallback` shared by the
Delete and Unversion branches: rebuild the prelude image, re-run the install
command, parse, and (only on a marker-free output that still yields parse
matches) recover versions from a listing of `self.image` — the prelude
image, which contains no installed packages. -/
def ubuntuFallbackReverify (exec : String → String)
    (listOut : ImageRef → String) (st : UbuntuState) :
    Except PyErr (UbuntuState × Bool) := do
  let st := { st with image := .built (ubuntuPrelude st) }
  let asm ← ubuntuAssemble st
  let output := exec (ubuntuInstallCmd asm.1 asm.2.2)
  let mp := aptMissingPkgs output
  let mv := aptMissingVers output
  let ret := ! aptHasErr output
  if mp = [] ∧ mv = [] then pure (st, false)
  else if ret = false then pure (st, false)
  else do
    let _ ← ubuntuAssemble st
    let parsed ← ubuntuParseAllPkgs (pyLines (listOut st.image))
    let unversion3 := st.unversion.map
      (fun e =>
        match dGet parsed e.1 with
        | some v => (e.1, some v)
        | none => e)
    let stillGone := (dKeys st.unversion).filter (fun p => ¬ dHas parsed p)
    pure ({ st with unversion := unversion3 }, stillGone.isEmpty)

/-- `UbuntuAnalyzer._run_fallback(missing, mode)`.  Dry mode returns `False`
at once.  Delete mode runs `del install_packages[name]` (a `KeyError` for a
name not in `install`) and a guarded delete from `unversion`; Unversion mode
runs `del install_packages[name]` and sets `unversion_packages[name] =
False`.  Both then rebuild the prelude image, re-run the install command, and
re-parse; with no error marker and no parse matches the call returns `False`
(the success path falls into the "no missing but error" early return); only
when the output yields parse matches but no `E: ` marker does the version
recovery loop run over the *entire* `unversion` dict against a listing of
`self.image` — the prelude image, not an image containing the installs. -/
def ubuntuRunFallback (exec : String → String) (listOut : ImageRef → String)
    (missing : List String) (mode : Mode) (st : UbuntuState) :
    Except PyErr (UbuntuState × Bool) := do
  match mode with
  | .dry => pure (st, false)
  | .delete => do
      let install2 ← missing.foldlM dPop st.install
      let unversion2 := missing.foldl dPopTry st.unversion
      ubuntuFallbackReverify exec listOut
        { st with install := install2, unversion := unversion2 }
  | .unversion => do
      let install2 ← missing.foldlM dPop st.install
      let unversion2 := missing.foldl (fun d p => dSet d p none) st.unversion
      ubuntuFallbackReverify exec listOut
        { st with install := install2, unversion := unversion2 }

/-- `UbuntuAnalyzer.verify_packages(mode)`: assert a non-empty install set,
build the prelude image, run the assembled install command, and evaluate:
no `E: ` marker — success; a marker with no parse matches — plain failure;
otherwise dispatch `missing_pkgs + missing_vers` to `_run_fallback`. -/
def ubuntuVerify (exec : String → String) (listOut : ImageRef → String)
    (mode : Mode) (st : UbuntuState) : Except PyErr (UbuntuState × Bool) := do
  if st.install = [] then .error .assertionError
  else do
    let st := { st with image := .built (ubuntuPrelude st) }
    let asm ← ubuntuAssemble st
    let output := exec (ubuntuInstallCmd asm.1 asm.2.2)
    let mp := aptMissingPkgs output
    let mv := aptMissingVers output
    if ! aptHasErr output then pure (st, true)
    else if mp = [] ∧ mv = [] then pure (st, false)
    else ubuntuRunFallback exec listOut (mp ++ mv) mode st

/-- The state of the base (RPM-family shared) engine: values of
`install_packages`/`unversion_packages` are versions or the `False`
sentinel (`none`). -/
structure BaseState where
  install : List (String × Option String)
  unversion : List (String × Option String)
  image : ImageRef
deriving DecidableEq

/-- The missing list computed by the base `verify_packages`: every
`install_packages` key not occurring as a substring of the logs of running
`LIST_INSTALLED` on the image freshly built from the subclass `dockerize`
output (`render st`). -/
def baseMissing (render : BaseState → String) (listOut : ImageRef → String)
    (st : BaseState) : List String :=
  (dKeys st.install).filter
    (fun p => ¬ sHas (listOut (.built (render st))) p)

/-- `SystemAnalyzer.verify_packages(mode)` (system.py lines 169-253):
dockerize and build, list the installed packages of the built image, and
collect the missing names.  On a partial result: Dry mode only logs; Delete
mode deletes the missing names from `install_packages` *only*; Unversion mode
sets the `False` sentinel in both dicts, re-dockerizes and rebuilds, then
probes the *pulled base image* (`{op_sys}:{version}`), parses that listing
with the subclass parser, and records recovered versions for missing names in
both dicts.  The verdict `there == total` reflects the pre-fallback state. -/
def baseVerify (render : BaseState → String) (listOut : ImageRef → String)
    (parse : List String → Except PyErr (List (String × String)))
    (mode : Mode) (st : BaseState) : Except PyErr (BaseState × Bool) := do
  if st.install = [] then .error .assertionError
  else do
    let st1 := { st with image := .built (render st) }
    let missing := baseMissing render listOut st
    if missing = [] then pure (st1, true)
    else
      match mode with
      | .dry => pure (st1, false)
      | .delete => do
          let install2 ← missing.foldlM dPop st1.install
          pure ({ st1 with install := install2 }, false)
      | .unversion => do
          let install2 := missing.foldl (fun d p => dSet d p none) st1.install
          let unversion2 := missing.foldl (fun d p => dSet d p none)
            st1.unversion
          let st2 := { st1 with install := install2, unversion := unversion2 }
          let st3 := { st2 with image := .built (render st2) }
          let parsed ← parse (pyLines (listOut ImageRef.pulled))
          let st4 := missing.foldl
            (fun (s : BaseState) p =>
              match dGet parsed p with
              | some v =>
                  { s with
                    install := dSet s.install p (some v)
                    unversion := dSet s.unversion p (some v) }
              | none => s)
            st3
          pure (st4, false)

/-! ## Example graph for the reduction property (spec §8) -/

/-- The node set `{a, b, c, d, e}` of the spec's reduction example. -/
def exNodes : Finset String := {"a", "b", "c", "d", "e"}

/-- The dependency callback for the spec's reduction example:
edges `a→c, b→a, b→e, c→b, d→c`. -/
def exDeps (n : String) : Finset String :=
  if n = "a" then {"c"}
  else if n = "b" then {"a", "e"}
  else if n = "c" then {"b"}
  else if n = "d" then {"c"}
  else ∅

/-- The banner/warning lines `parse_all_pkgs` skips for apt output: empty
lines and lines starting with `WARNING:` or `Listing`. -/
def ubuntuLineBanner (line : String) : Bool :=
  line == "" || sStarts line "WARNING:" || sStarts line "Listing"

/-- The structural grammar the apt line parser requires: the stripped line
contains the `now ` separator (so `split('now ')[1]` exists). -/
def ubuntuLineGrammar (line : String) : Bool :=
  2 ≤ (sSplit (sStrip line) "now ").length

/-- The name an apt line parses to: the stripped line up to the first `/`. -/
def ubuntuLineName (line : String) : String :=
  (sSplit (sStrip line) "/").headD ""

/-- The banner line `parse_all_pkgs` skips for yum output. -/
def centosLineBanner (line : String) : Bool :=
  sStarts line "Installed Packages"

/-- The structural grammar the yum line parser requires: at least two
whitespace-separated tokens (so `[0]` and `[1]` exist). -/
def centosLineGrammar (line : String) : Bool :=
  2 ≤ (pyWords (sStrip line) 2).length

/-- The name a yum line parses to: the first token cut at its last dot. -/
def centosLineName (line : String) : String :=
  rsplitDotHead ((pyWords (sStrip line) 2).headD "")

/-- The five report buckets as a list, for stating pairwise disjointness. -/
def reportBuckets (R : FileReport) : List (Finset String) :=
  [R.added, R.deleted, R.modified, R.verMismatch, R.unassoc]

/-- The union of the five report buckets. -/
def reportUnion (R : FileReport) : Finset String :=
  R.added ∪ R.deleted ∪ R.modified ∪ R.verMismatch ∪ R.unassoc

/-- The missing set of the first (pre-fallback) evaluation of
`UbuntuAnalyzer.verify_packages`: `missing_pkgs + missing_vers` parsed from
the logs of the assembled install command (empty when `_assemble_packages`
itself raises). -/
def ubuntuFirstMissing (exec : String → String) (st : UbuntuState) :
    List String :=
  match ubuntuAssemble st with
  | .ok asm =>
      aptMissingPkgs (exec (ubuntuInstallCmd asm.1 asm.2.2)) ++
        aptMissingVers (exec (ubuntuInstallCmd asm.1 asm.2.2))
  | .error _ => []

lemma string_ext {s t : String} (h : s.data = t.data) : s = t := by
  cases s; cases t; exact congrArg String.mk h

lemma empty_append_str (s : String) : "" ++ s = s := by
  apply string_ext; simp [String.data_append]

lemma length_space : (" " : String).length = 1 := by decide

lemma batchStr_nil : batchStr [] = "" := rfl

lemma batchStr_push (l : List String) (i : String) :
    batchStr (l ++ [i]) = batchStr l ++ (i ++ " ") := by
  simp [batchStr, List.foldl_append]

lemma batchStr_single (i : String) : batchStr [i] = i ++ " " := by
  have := batchStr_push [] i
  simpa [batchStr_nil, empty_append_str] using this

lemma batchStr_length (l : List String) :
    (batchStr l).length = (l.map (fun s => s.length + 1)).sum := by
  induction l using List.reverseRecOn with
  | nil => simp [batchStr_nil]
  | append_singleton xs x ih =>
      simp [batchStr_push, String.length_append, ih, length_space]

lemma batchStr_eq_empty {l : List String} (h : batchStr l = "") : l = [] := by
  cases l using List.reverseRecOn with
  | nil => rfl
  | append_singleton xs x =>
      exfalso
      have hlen := congrArg String.length h
      rw [batchStr_length] at hlen
      simp only [List.map_append, List.sum_append, List.map_cons, List.sum_cons,
        List.map_nil, List.sum_nil] at hlen
      have hz : ("" : String).length = 0 := by decide
      omega

lemma groupStringsGo_eq_items (C : Nat) :
    ∀ (rest curr : List String),
      groupStringsGo C rest (batchStr curr) =
        (groupItemsGo C rest curr).map batchStr := by
  intro rest
  induction rest with
  | nil =>
      intro curr
      by_cases h : curr = []
      · subst h; simp [groupStringsGo, groupItemsGo, batchStr_nil]
      · have hne : ¬ batchStr curr = "" := fun hc => h (batchStr_eq_empty hc)
        simp [groupStringsGo, groupItemsGo, h, hne]
  | cons item rest ih =>
      intro curr
      by_cases h : C < (batchStr curr).length
      · simp only [groupStringsGo, groupItemsGo, if_pos h, List.map_cons]
        rw [← batchStr_single item, ih [item]]
      · simp only [groupStringsGo, groupItemsGo, if_neg h]
        rw [← batchStr_push curr item, ih (curr ++ [item])]

lemma groupItemsGo_flatten (C : Nat) :
    ∀ (rest curr : List String), (groupItemsGo C rest curr).flatten = curr ++ rest := by
  intro rest
  induction rest with
  | nil =>
      intro curr
      by_cases h : curr = [] <;> simp [groupItemsGo, h]
  | cons item rest ih =>
      intro curr
      by_cases h : C < (batchStr curr).length
      · simp [groupItemsGo, if_pos h, ih [item]]
      · simp [groupItemsGo, if_neg h, ih (curr ++ [item])]

lemma groupStringsGo_length_le (C L : Nat) :
    ∀ (rest : List String) (curr : String),
      (∀ i ∈ rest, i.length ≤ L) →
      ∀ b ∈ groupStringsGo C rest curr, b.length ≤ max curr.length (C + L + 1) := by
  intro rest
  induction rest with
  | nil =>
      intro curr _ b hb
      simp only [groupStringsGo] at hb
      split at hb
      · simp at hb
      · simp at hb
        subst hb; exact le_max_left _ _
  | cons item rest ih =>
      intro curr hlen b hb
      have hitem : item.length ≤ L := hlen item (by simp)
      have hrest : ∀ i ∈ rest, i.length ≤ L := fun i hi => hlen i (by simp [hi])
      simp only [groupStringsGo] at hb
      split at hb
      · rcases List.mem_cons.mp hb with hb | hb
        · subst hb; exact le_max_left _ _
        · have := ih (item ++ " ") hrest b hb
          refine le_trans this (max_le ?_ (le_max_right _ _))
          have heq : (item ++ " ").length = item.length + 1 := by
            simp [String.length_append, length_space]
          rw [heq]
          exact le_max_of_le_right (by omega)
      · rename_i hguard
        have hcurr : curr.length ≤ C := by omega
        have := ih (curr ++ (item ++ " ")) hrest b hb
        refine le_trans this (max_le ?_ (le_max_right _ _))
        have heq : (curr ++ (item ++ " ")).length = curr.length + item.length + 1 := by
          simp [String.length_append, length_space]
          omega
        rw [heq]
        exact le_max_of_le_right (by omega)

/-! ## Package-line parsers (ubuntu.py lines 25-56, centos.py lines 24-53) -/

lemma mem_stepSet {nodes : Finset String} {deps : String → Finset String}
    {s : Finset String} {y : String} :
    y ∈ stepSet nodes deps s ↔ y ∈ s ∨ ∃ x ∈ s, depEdge nodes deps x y := by
  unfold stepSet
  simp only [Finset.mem_union, Finset.mem_filter]
  constructor
  · rintro (h | ⟨_, h⟩)
    · exact Or.inl h
    · exact Or.inr h
  · rintro (h | ⟨x, hx, he⟩)
    · exact Or.inl h
    · exact Or.inr ⟨he.2.1, x, hx, he⟩

lemma subset_stepSet (nodes : Finset String) (deps : String → Finset String)
    (s : Finset String) : s ⊆ stepSet nodes deps s :=
  Finset.subset_union_left

lemma stepSet_mono (nodes : Finset String) (deps : String → Finset String)
    {s t : Finset String} (h : s ⊆ t) :
    stepSet nodes deps s ⊆ stepSet nodes deps t := by
  intro y hy
  rcases mem_stepSet.mp hy with hy | ⟨x, hx, he⟩
  · exact mem_stepSet.mpr (Or.inl (h hy))
  · exact mem_stepSet.mpr (Or.inr ⟨x, h hx, he⟩)

lemma iterate_stepSet_mono_steps (nodes : Finset String)
    (deps : String → Finset String) (s : Finset String) :
    ∀ k, (stepSet nodes deps)^[k] s ⊆ (stepSet nodes deps)^[k + 1] s := by
  intro k
  induction k generalizing s with
  | zero => simpa using subset_stepSet nodes deps s
  | succ k ih =>
      rw [Function.iterate_succ_apply, Function.iterate_succ_apply]
      exact ih (stepSet nodes deps s)

lemma iterate_stepSet_le (nodes : Finset String)
    (deps : String → Finset String) (s : Finset String) {i j : Nat}
    (h : i ≤ j) : (stepSet nodes deps)^[i] s ⊆ (stepSet nodes deps)^[j] s := by
  induction j with
  | zero => simp [Nat.le_zero.mp h]
  | succ j ih =>
      rcases Nat.lt_or_ge i (j + 1) with hij | hij
      · exact (ih (Nat.lt_succ_iff.mp hij)).trans
          (iterate_stepSet_mono_steps nodes deps s j)
      · have : i = j + 1 := le_antisymm h hij
        subst this
        exact subset_rfl

lemma iterate_stepSet_sound (nodes : Finset String)
    (deps : String → Finset String) (n : String) :
    ∀ k m, m ∈ (stepSet nodes deps)^[k] {n} → Reaches nodes deps n m := by
  intro k
  induction k with
  | zero =>
      intro m hm
      simp only [Function.iterate_zero, id, Finset.mem_singleton] at hm
      subst hm
      exact Relation.ReflTransGen.refl
  | succ k ih =>
      intro m hm
      rw [Function.iterate_succ_apply'] at hm
      rcases mem_stepSet.mp hm with hm | ⟨x, hx, he⟩
      · exact ih m hm
      · exact Relation.ReflTransGen.tail (ih x hx) he

lemma reaches_exists_iterate {nodes : Finset String}
    {deps : String → Finset String} {n m : String}
    (h : Reaches nodes deps n m) :
    ∃ k, m ∈ (stepSet nodes deps)^[k] {n} := by
  induction h with
  | refl => exact ⟨0, by simp⟩
  | tail _ he ih =>
      obtain ⟨k, hk⟩ := ih
      refine ⟨k + 1, ?_⟩
      rw [Function.iterate_succ_apply']
      exact mem_stepSet.mpr (Or.inr ⟨_, hk, he⟩)

lemma iterate_stepSet_bounded (nodes : Finset String)
    (deps : String → Finset String) (n : String) :
    ∀ k, (stepSet nodes deps)^[k] {n} ⊆ insert n nodes := by
  intro k
  induction k with
  | zero => simp
  | succ k ih =>
      rw [Function.iterate_succ_apply']
      intro y hy
      rcases mem_stepSet.mp hy with hy | ⟨_, _, he⟩
      · exact ih hy
      · exact Finset.mem_insert_of_mem he.2.1

lemma iterate_stepSet_stabilize (nodes : Finset String)
    (deps : String → Finset String) (n : String) :
    ∀ k, (stepSet nodes deps)^[k] {n} = (stepSet nodes deps)^[k + 1] {n} ∨
      k + 1 ≤ ((stepSet nodes deps)^[k] {n}).card := by
  intro k
  induction k with
  | zero => right; simp
  | succ k ih =>
      rcases ih with heq | hcard
      · left
        conv_rhs => rw [Function.iterate_succ_apply', ← heq,
          ← Function.iterate_succ_apply' (stepSet nodes deps) k ({n} : Finset String)]
      · by_cases heq : (stepSet nodes deps)^[k] {n} =
            (stepSet nodes deps)^[k + 1] {n}
        · left
          conv_rhs => rw [Function.iterate_succ_apply', ← heq,
            ← Function.iterate_succ_apply' (stepSet nodes deps) k ({n} : Finset String)]
        · right
          have hss : (stepSet nodes deps)^[k] {n} ⊂
              (stepSet nodes deps)^[k + 1] {n} :=
            (iterate_stepSet_mono_steps nodes deps {n} k).ssubset_of_ne heq
          have := Finset.card_lt_card hss
          omega

lemma iterate_stepSet_fixed (nodes : Finset String)
    (deps : String → Finset String) (n : String) {k : Nat}
    (h : (stepSet nodes deps)^[k] {n} = (stepSet nodes deps)^[k + 1] {n}) :
    ∀ j, (stepSet nodes deps)^[k + j] {n} = (stepSet nodes deps)^[k] {n} := by
  intro j
  induction j with
  | zero => rfl
  | succ j ih =>
      have hidx : k + (j + 1) = (k + j) + 1 := by omega
      rw [hidx, Function.iterate_succ_apply', ih]
      conv_rhs => rw [h, Function.iterate_succ_apply']

lemma mem_reachSet_iff {nodes : Finset String} {deps : String → Finset String}
    {n m : String} :
    m ∈ reachSet nodes deps n ↔ Reaches nodes deps n m := by
  constructor
  · exact iterate_stepSet_sound nodes deps n (nodes.card + 1) m
  · intro h
    obtain ⟨k, hk⟩ := reaches_exists_iterate h
    set K := nodes.card + 1 with hK
    rcases Nat.le_total k K with hle | hge
    · exact iterate_stepSet_le nodes deps {n} hle hk
    · have hfix : (stepSet nodes deps)^[K] {n} =
          (stepSet nodes deps)^[K + 1] {n} := by
        rcases iterate_stepSet_stabilize nodes deps n K with h | hcard
        · exact h
        · exfalso
          have hbound := Finset.card_le_card
            (iterate_stepSet_bounded nodes deps n K)
          have hins := Finset.card_insert_le n nodes
          omega
      obtain ⟨j, hj⟩ := Nat.exists_eq_add_of_le hge
      rw [hj, iterate_stepSet_fixed nodes deps n hfix j] at hk
      exact hk

/-! ## `SystemAnalyzer.examine_files_and_packages` (system.py lines 403-487)

Inputs are the three file sets built by `analyze_files` — `just_cont`
(files only on the container/replica), `shared` (files on both sides whose
checksums differ, i.e. `modified_files`), `just_vm` (files only on the
VM/source) — together with the VM package dict `all_packages`, the per-package
file lists `packages_files`, the parsed container package dict `cont_pkgs`
(the parse of `LIST_INSTALLED` output is an input boundary here) and the
`files_changed_from_package` probe. -/

lemma fileStep_bucket (vm : Bool) (changed : List String)
    (jc sh jv : Finset String) (st : FileBuckets) (f g : String)
    (t : FileTag) :
    g ∈ bucketOf (fileStep vm changed jc sh jv st f) t ↔
      g ∈ bucketOf st t ∨ (g = f ∧ fileBranch vm changed jc sh jv f = some t) := by
  unfold fileStep fileBranch
  split_ifs <;> cases t <;>
    simp [bucketOf, Finset.mem_insert] <;> tauto

lemma fileStep_seen (vm : Bool) (changed : List String)
    (jc sh jv : Finset String) (st : FileBuckets) (f g : String) :
    g ∈ (fileStep vm changed jc sh jv st f).seen ↔
      g ∈ st.seen ∨ g = f := by
  unfold fileStep
  split_ifs <;> simp [Finset.mem_insert] <;> tauto

lemma foldl_fileStep_bucket (vm : Bool) (changed : List String)
    (jc sh jv : Finset String) (t : FileTag) (g : String) :
    ∀ (files : List String) (st : FileBuckets),
      g ∈ bucketOf (files.foldl (fileStep vm changed jc sh jv) st) t ↔
        g ∈ bucketOf st t ∨
          (g ∈ files ∧ fileBranch vm changed jc sh jv g = some t) := by
  intro files
  induction files with
  | nil => simp
  | cons f fs ih =>
      intro st
      rw [List.foldl_cons, ih]
      rw [fileStep_bucket]
      constructor
      · rintro ((h | ⟨rfl, hb⟩) | ⟨hf, hb⟩)
        · exact Or.inl h
        · exact Or.inr ⟨by simp, hb⟩
        · exact Or.inr ⟨by simp [hf], hb⟩
      · rintro (h | ⟨hf, hb⟩)
        · exact Or.inl (Or.inl h)
        · rcases List.mem_cons.mp hf with rfl | hf
          · exact Or.inl (Or.inr ⟨rfl, hb⟩)
          · exact Or.inr ⟨hf, hb⟩

lemma foldl_fileStep_seen (vm : Bool) (changed : List String)
    (jc sh jv : Finset String) (g : String) :
    ∀ (files : List String) (st : FileBuckets),
      g ∈ (files.foldl (fileStep vm changed jc sh jv) st).seen ↔
        g ∈ st.seen ∨ g ∈ files := by
  intro files
  induction files with
  | nil => simp
  | cons f fs ih =>
      intro st
      rw [List.foldl_cons, ih, fileStep_seen]
      constructor
      · rintro ((h | rfl) | h)
        · exact Or.inl h
        · exact Or.inr (by simp)
        · exact Or.inr (by simp [h])
      · rintro (h | h)
        · exact Or.inl (Or.inl h)
        · rcases List.mem_cons.mp h with rfl | h
          · exact Or.inl (Or.inr rfl)
          · exact Or.inr h

/-- Membership characterization of the classification loop: a file is in a
bucket exactly when some processed package owns it and that package's loop
body classifies it with the bucket's tag. -/
lemma examineCore_bucket (allPkgs : List (String × String))
    (filesOf : String → List String) (contPkgs : List (String × String))
    (changedOf : String → List String) (jc sh jv : Finset String)
    (t : FileTag) (g : String) :
    g ∈ bucketOf (examineCore allPkgs filesOf contPkgs changedOf jc sh jv) t ↔
      ∃ e ∈ allPkgs, g ∈ filesOf e.1 ∧
        fileBranch (versionMatched contPkgs e.1 e.2) (changedOf e.1) jc sh jv g
          = some t := by
  unfold examineCore
  suffices h : ∀ (l : List (String × String)) (st : FileBuckets),
      g ∈ bucketOf (l.foldl (pkgStep filesOf contPkgs changedOf jc sh jv) st) t
        ↔ g ∈ bucketOf st t ∨ ∃ e ∈ l, g ∈ filesOf e.1 ∧
          fileBranch (versionMatched contPkgs e.1 e.2) (changedOf e.1) jc sh jv
            g = some t by
    rw [h]
    have : g ∈ bucketOf ⟨∅, ∅, ∅, ∅, ∅⟩ t ↔ False := by
      cases t <;> simp [bucketOf]
    tauto
  intro l
  induction l with
  | nil => simp
  | cons e es ih =>
      intro st
      rw [List.foldl_cons, ih]
      unfold pkgStep
      rw [foldl_fileStep_bucket]
      constructor
      · rintro ((h | ⟨hf, hb⟩) | ⟨e', he', hf, hb⟩)
        · exact Or.inl h
        · exact Or.inr ⟨e, by simp, hf, hb⟩
        · exact Or.inr ⟨e', by simp [he'], hf, hb⟩
      · rintro (h | ⟨e', he', hf, hb⟩)
        · exact Or.inl (Or.inl h)
        · rcases List.mem_cons.mp he' with rfl | he'
          · exact Or.inl (Or.inr ⟨hf, hb⟩)
          · exact Or.inr ⟨e', he', hf, hb⟩

/-- A file is seen exactly when some package in the dict owns it. -/
lemma examineCore_seen (allPkgs : List (String × String))
    (filesOf : String → List String) (contPkgs : List (String × String))
    (changedOf : String → List String) (jc sh jv : Finset String)
    (g : String) :
    g ∈ (examineCore allPkgs filesOf contPkgs changedOf jc sh jv).seen ↔
      ∃ e ∈ allPkgs, g ∈ filesOf e.1 := by
  unfold examineCore
  suffices h : ∀ (l : List (String × String)) (st : FileBuckets),
      g ∈ (l.foldl (pkgStep filesOf contPkgs changedOf jc sh jv) st).seen ↔
        g ∈ st.seen ∨ ∃ e ∈ l, g ∈ filesOf e.1 by
    rw [h]; simp
  intro l
  induction l with
  | nil => simp
  | cons e es ih =>
      intro st
      rw [List.foldl_cons, ih]
      unfold pkgStep
      rw [foldl_fileStep_seen]
      constructor
      · rintro ((h | hf) | ⟨e', he', hf⟩)
        · exact Or.inl h
        · exact Or.inr ⟨e, by simp, hf⟩
        · exact Or.inr ⟨e', by simp [he'], hf⟩
      · rintro (h | ⟨e', he', hf⟩)
        · exact Or.inl (Or.inl h)
        · rcases List.mem_cons.mp he' with rfl | he'
          · exact Or.inl (Or.inr hf)
          · exact Or.inr ⟨e', he', hf⟩

/-! ## Association-list dictionary lemmas -/

lemma dHas_cons {α : Type} (e : String × α) (es : List (String × α))
    (k : String) : dHas (e :: es) k = (e.1 == k || dHas es k) := by
  unfold dHas
  rw [List.find?_cons]
  cases h : (e.1 == k) <;> simp [h]

lemma dGet_cons {α : Type} (e : String × α) (es : List (String × α))
    (k : String) :
    dGet (e :: es) k = if e.1 = k then some e.2 else dGet es k := by
  unfold dGet
  rw [List.find?_cons]
  cases hb : (e.1 == k) with
  | false =>
      have h : ¬ e.1 = k := by simpa using hb
      simp [hb, h]
  | true =>
      have h : e.1 = k := by simpa using hb
      simp [hb, h]

lemma dRemove_cons {α : Type} (e : String × α) (es : List (String × α))
    (k : String) :
    dRemove (e :: es) k =
      if e.1 = k then dRemove es k else e :: dRemove es k := by
  unfold dRemove
  rw [List.filter_cons]
  by_cases h : e.1 = k <;> simp [h]

lemma dHas_iff_mem_keys {α : Type} (d : List (String × α)) (k : String) :
    dHas d k = true ↔ k ∈ dKeys d := by
  induction d with
  | nil => simp [dHas, dKeys]
  | cons e es ih =>
      rw [dHas_cons]
      simp only [dKeys, List.map_cons, List.mem_cons, Bool.or_eq_true,
        beq_iff_eq]
      rw [ih]
      unfold dKeys
      constructor
      · rintro (h | h)
        · exact Or.inl h.symm
        · exact Or.inr h
      · rintro (h | h)
        · exact Or.inl h.symm
        · exact Or.inr h

lemma dGet_isSome_iff {α : Type} (d : List (String × α)) (k : String) :
    (dGet d k).isSome = true ↔ k ∈ dKeys d := by
  rw [← dHas_iff_mem_keys]
  unfold dGet dHas
  cases (d.find? fun e => e.1 == k) <;> simp

lemma dGet_dRemove_self {α : Type} (d : List (String × α)) (k : String) :
    dGet (dRemove d k) k = none := by
  induction d with
  | nil => rfl
  | cons e es ih =>
      rw [dRemove_cons]
      by_cases h : e.1 = k
      · simpa [h] using ih
      · rw [if_neg h, dGet_cons, if_neg h]
        exact ih

lemma dGet_dRemove_other {α : Type} (d : List (String × α)) {k p : String}
    (h : p ≠ k) : dGet (dRemove d k) p = dGet d p := by
  induction d with
  | nil => rfl
  | cons e es ih =>
      rw [dRemove_cons, dGet_cons]
      by_cases he : e.1 = k
      · rw [if_pos he, ih, if_neg (by rw [he]; exact fun hc => h hc.symm)]
      · rw [if_neg he, dGet_cons]
        by_cases hep : e.1 = p
        · rw [if_pos hep, if_pos hep]
        · rw [if_neg hep, if_neg hep, ih]

lemma dGet_mapSet_other {α : Type} (es : List (String × α)) {k p : String}
    (v : α) (h : p ≠ k) :
    dGet (es.map (fun e => if e.1 == k then (k, v) else e)) p = dGet es p := by
  induction es with
  | nil => rfl
  | cons e es ih =>
      simp only [List.map_cons]
      by_cases he : e.1 = k
      · rw [if_pos (by simp [he]), dGet_cons, dGet_cons,
          if_neg (fun hc => h hc.symm), if_neg (by rw [he]; exact fun hc => h hc.symm)]
        exact ih
      · rw [if_neg (by simp [he]), dGet_cons, dGet_cons]
        by_cases hep : e.1 = p
        · rw [if_pos hep, if_pos hep]
        · rw [if_neg hep, if_neg hep, ih]

lemma dGet_mapSet_self {α : Type} (es : List (String × α)) {k : String}
    (v : α) (hmem : k ∈ dKeys es) :
    dGet (es.map (fun e => if e.1 == k then (k, v) else e)) k = some v := by
  induction es with
  | nil => simp [dKeys] at hmem
  | cons e es ih =>
      simp only [List.map_cons]
      by_cases he : e.1 = k
      · rw [if_pos (by simp [he]), dGet_cons, if_pos rfl]
      · rw [if_neg (by simp [he]), dGet_cons, if_neg he]
        apply ih
        have hm : k ∈ dKeys (e :: es) := hmem
        unfold dKeys at hm ⊢
        simp only [List.map_cons, List.mem_cons] at hm
        rcases hm with hc | hc
        · exact absurd hc.symm he
        · exact hc

lemma dGet_dSet_self {α : Type} (d : List (String × α)) (k : String)
    (v : α) : dGet (dSet d k v) k = some v := by
  unfold dSet
  by_cases h : dHas d k
  · rw [if_pos h]
    exact dGet_mapSet_self d v ((dHas_iff_mem_keys d k).mp h)
  · rw [if_neg h]
    unfold dGet at *
    rw [List.find?_append]
    have hnone : d.find? (fun e => e.1 == k) = none := by
      unfold dHas at h
      cases hf : d.find? (fun e => e.1 == k)
      · rfl
      · rw [hf] at h; simp at h
    rw [hnone]
    simp [List.find?]

lemma dGet_dSet_other {α : Type} (d : List (String × α)) {k p : String}
    (v : α) (h : p ≠ k) : dGet (dSet d k v) p = dGet d p := by
  unfold dSet
  by_cases hk : dHas d k
  · rw [if_pos hk]
    exact dGet_mapSet_other d v h
  · rw [if_neg hk]
    unfold dGet
    rw [List.find?_append]
    cases hf : d.find? (fun e => e.1 == p)
    · simp only [Option.none_or]
      have : (((k, v) : String × α).1 == p) = false := by
        simp
        exact fun hc => h hc.symm
      simp [List.find?, this]
    · simp

lemma dKeys_dSet {α : Type} (d : List (String × α)) (k p : String) (v : α) :
    p ∈ dKeys (dSet d k v) ↔ p ∈ dKeys d ∨ p = k := by
  by_cases h : p = k
  · subst h
    rw [← dGet_isSome_iff, dGet_dSet_self]
    simp
  · rw [← dGet_isSome_iff, dGet_dSet_other d v h, dGet_isSome_iff]
    simp [h]

lemma dKeys_dRemove {α : Type} (d : List (String × α)) (k p : String) :
    p ∈ dKeys (dRemove d k) ↔ p ∈ dKeys d ∧ p ≠ k := by
  by_cases h : p = k
  · subst h
    rw [← dGet_isSome_iff, dGet_dRemove_self]
    simp
  · rw [← dGet_isSome_iff, dGet_dRemove_other d h, dGet_isSome_iff]
    simp [h]

lemma dRemove_of_not_mem {α : Type} {d : List (String × α)} {k : String}
    (h : k ∉ dKeys d) : dRemove d k = d := by
  induction d with
  | nil => rfl
  | cons e es ih =>
      rw [dRemove_cons]
      have hne : e.1 ≠ k := by
        intro hc
        exact h (by simp [dKeys, hc])
      rw [if_neg hne, ih (fun hc => h (by simp [dKeys] at hc ⊢; exact Or.inr hc))]

lemma dRemove_sublist {α : Type} (d : List (String × α)) (k : String) :
    (dRemove d k).Sublist d :=
  List.filter_sublist d

lemma dKeys_nodup_dRemove {α : Type} {d : List (String × α)} (k : String)
    (h : (dKeys d).Nodup) : (dKeys (dRemove d k)).Nodup :=
  List.Nodup.sublist (List.Sublist.map Prod.fst (dRemove_sublist d k)) h

lemma length_dRemove {α : Type} {d : List (String × α)} {k : String}
    (hn : (dKeys d).Nodup) (hk : k ∈ dKeys d) :
    (dRemove d k).length = d.length - 1 := by
  induction d with
  | nil => simp [dKeys] at hk
  | cons e es ih =>
      rw [dRemove_cons]
      unfold dKeys at hn hk
      simp only [List.map_cons, List.nodup_cons, List.mem_cons] at hn hk
      by_cases he : e.1 = k
      · rw [if_pos he]
        have : k ∉ dKeys es := he ▸ hn.1
        rw [dRemove_of_not_mem this]
        simp
      · rw [if_neg he]
        rcases hk with hk | hk
        · exact absurd hk.symm he
        · have hlen := ih hn.2 hk
          have hpos : 0 < es.length := by
            rcases List.mem_map.mp hk with ⟨x, hx, _⟩
            exact List.length_pos.mpr (by rintro rfl; simp at hx)
          simp only [List.length_cons, hlen]
          omega

/-- Generic pointwise description of a left fold of per-key dictionary
updates: keys outside the folded name list keep their binding. -/
lemma dGet_foldl_untouched {α : Type}
    (g : List (String × α) → String → List (String × α))
    (hother : ∀ d q p, p ≠ q → dGet (g d q) p = dGet d p) :
    ∀ (M : List String) (d : List (String × α)) (p : String), p ∉ M →
      dGet (M.foldl g d) p = dGet d p := by
  intro M
  induction M with
  | nil => intro d p _; rfl
  | cons q rest ih =>
      intro d p hp
      rw [List.foldl_cons, ih _ _ (fun hc => hp (by simp [hc])),
        hother _ _ _ (fun hc => hp (by simp [hc]))]

/-- Generic pointwise description of a left fold of per-key dictionary
updates over distinct names: a folded name's binding is rewritten by the
update function exactly once. -/
lemma dGet_foldl_mem {α : Type}
    (g : List (String × α) → String → List (String × α))
    (W : String → Option α → Option α)
    (hother : ∀ d q p, p ≠ q → dGet (g d q) p = dGet d p)
    (hself : ∀ d q, dGet (g d q) q = W q (dGet d q)) :
    ∀ (M : List String), M.Nodup →
      ∀ (d : List (String × α)) (p : String), p ∈ M →
        dGet (M.foldl g d) p = W p (dGet d p) := by
  intro M
  induction M with
  | nil => intro _ d p hp; simp at hp
  | cons q rest ih =>
      intro hnd d p hp
      rw [List.foldl_cons]
      rcases List.mem_cons.mp hp with rfl | hp2
      · rw [dGet_foldl_untouched g hother rest _ _ (by
          simpa using (List.nodup_cons.mp hnd).1), hself]
      · have hpq : p ≠ q := by
          rintro rfl
          exact (List.nodup_cons.mp hnd).1 hp2
        rw [ih (List.nodup_cons.mp hnd).2 _ _ hp2, hother _ _ _ hpq]

lemma foldlM_dPop_ok {α : Type} :
    ∀ (M : List String) (d : List (String × α)), M.Nodup →
      (∀ p ∈ M, p ∈ dKeys d) →
      M.foldlM dPop d = .ok (M.foldl dPopTry d) := by
  intro M
  induction M with
  | nil => intro d _ _; rfl
  | cons q rest ih =>
      intro d hnd hsub
      rw [List.foldlM_cons, List.foldl_cons]
      have hq : dHas d q = true :=
        (dHas_iff_mem_keys d q).mpr (hsub q (by simp))
      unfold dPop
      rw [if_pos hq]
      show rest.foldlM dPop (dRemove d q) = _
      rw [ih (dRemove d q) (List.nodup_cons.mp hnd).2 ?_]
      · rfl
      · intro p hp
        rw [dKeys_dRemove]
        exact ⟨hsub p (by simp [hp]),
          by rintro rfl; exact (List.nodup_cons.mp hnd).1 hp⟩

lemma dKeys_nodup_foldl_dPopTry {α : Type} :
    ∀ (M : List String) (d : List (String × α)), (dKeys d).Nodup →
      (dKeys (M.foldl dPopTry d)).Nodup := by
  intro M
  induction M with
  | nil => intro d h; exact h
  | cons q rest ih =>
      intro d h
      rw [List.foldl_cons]
      exact ih _ (dKeys_nodup_dRemove q h)

lemma length_foldl_dPopTry {α : Type} :
    ∀ (M : List String) (d : List (String × α)), M.Nodup →
      (dKeys d).Nodup → (∀ p ∈ M, p ∈ dKeys d) →
      (M.foldl dPopTry d).length = d.length - M.length := by
  intro M
  induction M with
  | nil => intro d _ _ _; simp
  | cons q rest ih =>
      intro d hnd hkn hsub
      rw [List.foldl_cons]
      have hq : q ∈ dKeys d := hsub q (by simp)
      have hlen := length_dRemove hkn hq
      have hrec := ih (dRemove d q) (List.nodup_cons.mp hnd).2
        (dKeys_nodup_dRemove q hkn) ?_
      · rw [show rest.foldl dPopTry (dPopTry d q) = rest.foldl dPopTry
          (dRemove d q) from rfl, hrec, hlen]
        simp only [List.length_cons]
        omega
      · intro p hp
        rw [dKeys_dRemove]
        exact ⟨hsub p (by simp [hp]),
          by rintro rfl; exact (List.nodup_cons.mp hnd).1 hp⟩

/-! ## `SystemAnalyzer.compare_names` and `analyze_files`
(system.py lines 355-397 and 490-538)

Remote effects are oracles: `sshLines` maps the executed shell command to the
lines produced on the VM side, and `contOut` maps the `find` command to the
(optional) decoded container output.  The three-way split itself is pure set
arithmetic over the two collected name sets. -/

/-- Characterization of `analyze_dependencies`: membership in the result is
membership in the node set minus the *necessary* predicate. -/
lemma mem_analyze_dependencies (nodes : Finset String)
    (deps : String → Finset String) (n : String) :
    n ∈ analyze_dependencies nodes deps ↔
      n ∈ nodes ∧ ¬ NecessaryPkg nodes deps n := by
  unfold analyze_dependencies NecessaryPkg
  rw [Finset.mem_sdiff, Finset.mem_union, Finset.mem_filter, Finset.mem_filter]
  have hdeg : (nodes.filter (fun x => n ∈ deps x)).card = 0 ↔
      ∀ x ∈ nodes, n ∉ deps x := by
    rw [Finset.card_eq_zero, Finset.filter_eq_empty_iff]
  have hscc : (∃ m ∈ nodes.erase n,
      m ∈ reachSet nodes deps n ∧ n ∈ reachSet nodes deps m) ↔
      ∃ m ∈ nodes, m ≠ n ∧ Reaches nodes deps n m ∧ Reaches nodes deps m n := by
    constructor
    · rintro ⟨m, hm, hr1, hr2⟩
      obtain ⟨hne, hmn⟩ := Finset.mem_erase.mp hm
      exact ⟨m, hmn, hne, mem_reachSet_iff.mp hr1, mem_reachSet_iff.mp hr2⟩
    · rintro ⟨m, hmn, hne, hr1, hr2⟩
      exact ⟨m, Finset.mem_erase.mpr ⟨hne, hmn⟩,
        mem_reachSet_iff.mpr hr1, mem_reachSet_iff.mpr hr2⟩
  constructor
  · rintro ⟨hn, hnot⟩
    refine ⟨hn, ?_⟩
    rintro (h | h)
    · exact hnot (Or.inl ⟨hn, hdeg.mpr h⟩)
    · exact hnot (Or.inr ⟨hn, hscc.mpr h⟩)
  · rintro ⟨hn, hnot⟩
    refine ⟨hn, ?_⟩
    rintro (⟨_, h⟩ | ⟨_, h⟩)
    · exact hnot (Or.inl (hdeg.mp h))
    · exact hnot (Or.inr (hscc.mp h))

/-- C5: for every finite node set and dependency-lookup function, the
dependency reduction returns exactly the node set minus the necessary set —
in-degree-zero nodes together with all members of strongly connected
components of size greater than one (mutual reachability with some distinct
node); the result is a pure function of the graph, hence independent of any
component discovery order; and on the example graph `{a,b,c,d,e}` with edges
`a→c, b→a, b→e, c→b, d→c` the removable set is `{e}`. -/
theorem c5_dependency_reduction :
    (∀ (nodes : Finset String) (deps : String → Finset String) (n : String),
      n ∈ analyze_dependencies nodes deps ↔
        n ∈ nodes ∧ ¬ NecessaryPkg nodes deps n) ∧
    analyze_dependencies exNodes exDeps = {"e"} :=
  ⟨mem_analyze_dependencies, by decide⟩

/-- C9: the RPM-family line parser on the spec's scenario line returns name
`java-1.8.0-openjdk` (the architecture suffix is cut at the *last* dot, as
`rsplitDotHead` does) and version `1.8.0.212.b04` (cut at the first dash,
epoch prefix before the colon dropped). -/
theorem c9_rpm_line_scenario :
    centosParsePkgLine
        "java-1.8.0-openjdk.x86_64   1:1.8.0.212.b04-0.el7_6" =
      .ok ("java-1.8.0-openjdk", "1.8.0.212.b04") ∧
    rsplitDotHead "java-1.8.0-openjdk.x86_64" = "java-1.8.0-openjdk" := by
  decide

/-- C7 counterexample: with ceiling 5, the two items `abc` and `de` (each
within the ceiling) are emitted as the single batch `"abc de "` of length 7 —
a batch over the ceiling that is not a single over-long item passed alone
(the loop only yields once the accumulator already exceeds the ceiling). -/
theorem c7_counterexample :
    ("abc".length ≤ 5 ∧ "de".length ≤ 5) ∧
    group_strings ["abc", "de"] 5 = ["abc de "] ∧
    5 < "abc de ".length := by decide

/-- C7 (amended): for items of length at most `L`, every batch produced by
`group_strings` has length at most `char_count + L + 1` (not `char_count`);
each batch is the space-joined rendering of a contiguous run of items (no
item is ever split across batches); and the concatenation of those runs is
exactly the input — no duplicates, no omissions, order preserved. -/
theorem c7_amended (items : List String) (C L : Nat)
    (h : ∀ i ∈ items, i.length ≤ L) :
    (∀ b ∈ group_strings items C, b.length ≤ C + L + 1) ∧
    group_strings items C = (groupItems items C).map batchStr ∧
    (groupItems items C).flatten = items := by
  refine ⟨?_, ?_, ?_⟩
  · intro b hb
    have hz : ("" : String).length = 0 := by decide
    have := groupStringsGo_length_le C L items "" h b hb
    rw [hz] at this
    simpa using this
  · have := groupStringsGo_eq_items C items []
    rw [batchStr_nil] at this
    exact this
  · exact groupItemsGo_flatten C items []

theorem c7_amended_witness :
    (∀ i ∈ ["abc", "de"], i.length ≤ 3) ∧
    ((∀ b ∈ group_strings ["abc", "de"] 5, b.length ≤ 5 + 3 + 1) ∧
      group_strings ["abc", "de"] 5 =
        (groupItems ["abc", "de"] 5).map batchStr ∧
      (groupItems ["abc", "de"] 5).flatten = ["abc", "de"]) :=
  ⟨by decide, c7_amended ["abc", "de"] 5 3 (by decide)⟩

/-- C10: omitting the blocklist (the `None` default) makes `compare_names`
raise `TypeError` while iterating it, instead of returning the three-way
split; any actual list (even empty) makes it return the split; and
`analyze_files` with both defaults propagates the same `TypeError` from its
first `compare_names` call — a non-`None` blocklist is an undocumented
precondition of both. -/
theorem c10_blocklist_precondition :
    (∀ (loc : String) (sshLines : String → List String)
        (contOut : String → Option String),
      compare_names loc none sshLines contOut = .error .typeError) ∧
    (∀ (loc : String) (bl : List String) (sshLines : String → List String)
        (contOut : String → Option String),
      ∃ t, compare_names loc (some bl) sshLines contOut = .ok t) ∧
    (∀ (sshLines : String → List String) (contOut : String → Option String),
      analyze_files_unique none none sshLines contOut = .error .typeError) :=
  ⟨fun _ _ _ => rfl, fun _ _ _ _ => ⟨_, rfl⟩, fun _ _ => rfl⟩

/-! ## C8: grammar predicates for the two backends -/

lemma ubuntuParsePkgLine_error {line : String}
    (h : ubuntuLineGrammar line = false) :
    ubuntuParsePkgLine line = .error .indexError := by
  unfold ubuntuLineGrammar at h
  have hlen : (sSplit (sStrip line) "now ").length < 2 := by simpa using h
  have hg : (sSplit (sStrip line) "now ")[1]? = none :=
    List.getElem?_eq_none (by omega)
  unfold ubuntuParsePkgLine
  rw [hg]

lemma ubuntuParsePkgLine_ok {line : String}
    (h : ubuntuLineGrammar line = true) :
    ∃ v, ubuntuParsePkgLine line = .ok (ubuntuLineName line, v) := by
  unfold ubuntuLineGrammar at h
  have hlen : 1 < (sSplit (sStrip line) "now ").length := by simpa using h
  cases hg : (sSplit (sStrip line) "now ")[1]? with
  | none =>
      rw [List.getElem?_eq_none_iff] at hg
      omega
  | some v =>
      unfold ubuntuParsePkgLine ubuntuLineName
      rw [hg]
      exact ⟨_, rfl⟩

lemma ubuntuParsePkgLine_error_kind {line : String} {e : PyErr}
    (hp : ubuntuParsePkgLine line = .error e) : e = .indexError := by
  by_cases hg : ubuntuLineGrammar line = true
  · obtain ⟨v, hv⟩ := ubuntuParsePkgLine_ok hg
    rw [hv] at hp
    cases hp
  · have := (ubuntuParsePkgLine_error (by simpa using hg)).symm.trans hp
    exact (Except.error.inj this).symm

lemma centosParsePkgLine_error {line : String}
    (h : centosLineGrammar line = false) :
    centosParsePkgLine line = .error .indexError := by
  unfold centosLineGrammar at h
  have hlen : (pyWords (sStrip line) 2).length < 2 := by simpa using h
  unfold centosParsePkgLine
  cases h0 : (pyWords (sStrip line) 2)[0]? with
  | none => rfl
  | some t0 =>
      have h1 : (pyWords (sStrip line) 2)[1]? = none :=
        List.getElem?_eq_none (by omega)
      rw [h1]

lemma centosParsePkgLine_ok {line : String}
    (h : centosLineGrammar line = true) :
    ∃ v, centosParsePkgLine line = .ok (centosLineName line, v) := by
  unfold centosLineGrammar at h
  have hlen : 1 < (pyWords (sStrip line) 2).length := by simpa using h
  unfold centosParsePkgLine centosLineName
  cases htoks : (pyWords (sStrip line) 2) with
  | nil => rw [htoks] at hlen; simp at hlen
  | cons t0 rest =>
      cases rest with
      | nil => rw [htoks] at hlen; simp at hlen
      | cons t1 rest2 =>
          refine ⟨(sSplit ((sSplit t1 "-").headD "") ":").getLastD "", ?_⟩
          have e0 : (t0 :: t1 :: rest2)[0]? = some t0 := by simp
          have e1 : (t0 :: t1 :: rest2)[1]? = some t1 := by simp
          rw [e0, e1]
          rfl

lemma centosParsePkgLine_error_kind {line : String} {e : PyErr}
    (hp : centosParsePkgLine line = .error e) : e = .indexError := by
  by_cases hg : centosLineGrammar line = true
  · obtain ⟨v, hv⟩ := centosParsePkgLine_ok hg
    rw [hv] at hp
    cases hp
  · have := (centosParsePkgLine_error (by simpa using hg)).symm.trans hp
    exact (Except.error.inj this).symm

lemma ubuntuParseAllGo_error :
    ∀ (lines : List String) (acc : List (String × String)) (line : String),
      line ∈ lines → ubuntuLineBanner line = false →
      ubuntuLineGrammar line = false →
      ubuntuParseAllGo lines acc = .error .indexError := by
  intro lines
  induction lines with
  | nil => intro _ _ h; simp at h
  | cons l rest ih =>
      intro acc line hmem hban hgr
      unfold ubuntuParseAllGo
      by_cases h1 : l = ""
      · rw [if_pos h1]
        rcases List.mem_cons.mp hmem with rfl | hmem2
        · exfalso
          unfold ubuntuLineBanner at hban
          rw [h1] at hban
          simp at hban
        · exact ih acc line hmem2 hban hgr
      · rw [if_neg h1]
        by_cases h2 : sStarts l "WARNING:" = true
        · rw [if_pos h2]
          rcases List.mem_cons.mp hmem with rfl | hmem2
          · exfalso
            unfold ubuntuLineBanner at hban
            rw [h2] at hban
            simp at hban
          · exact ih acc line hmem2 hban hgr
        · rw [if_neg h2]
          by_cases h3 : sStarts l "Listing" = true
          · rw [if_pos h3]
            rcases List.mem_cons.mp hmem with rfl | hmem2
            · exfalso
              unfold ubuntuLineBanner at hban
              rw [h3] at hban
              simp at hban
            · exact ih acc line hmem2 hban hgr
          · rw [if_neg h3]
            rcases List.mem_cons.mp hmem with rfl | hmem2
            · rw [ubuntuParsePkgLine_error hgr]
            · cases hp : ubuntuParsePkgLine l with
              | error e => rw [ubuntuParsePkgLine_error_kind hp]
              | ok nv => exact ih _ line hmem2 hban hgr

lemma centosParseAllGo_error :
    ∀ (lines : List String) (acc : List (String × String)) (line : String),
      line ∈ lines → centosLineBanner line = false →
      centosLineGrammar line = false →
      centosParseAllGo lines acc = .error .indexError := by
  intro lines
  induction lines with
  | nil => intro _ _ h; simp at h
  | cons l rest ih =>
      intro acc line hmem hban hgr
      unfold centosParseAllGo
      by_cases h1 : sStarts l "Installed Packages" = true
      · rw [if_pos h1]
        rcases List.mem_cons.mp hmem with rfl | hmem2
        · exfalso
          unfold centosLineBanner at hban
          rw [h1] at hban
          cases hban
        · exact ih acc line hmem2 hban hgr
      · rw [if_neg h1]
        rcases List.mem_cons.mp hmem with rfl | hmem2
        · rw [centosParsePkgLine_error hgr]
        · cases hp : centosParsePkgLine l with
          | error e => rw [centosParsePkgLine_error_kind hp]
          | ok nv => exact ih _ line hmem2 hban hgr

lemma ubuntuParseAllGo_ok :
    ∀ (lines : List String) (acc m : List (String × String)),
      ubuntuParseAllGo lines acc = .ok m →
      (∀ k ∈ dKeys acc, k ∈ dKeys m) ∧
      ∀ line ∈ lines, ubuntuLineBanner line = false →
        ubuntuLineGrammar line = true ∧ ubuntuLineName line ∈ dKeys m := by
  intro lines
  induction lines with
  | nil =>
      intro acc m h
      cases h
      exact ⟨fun k hk => hk, by simp⟩
  | cons l rest ih =>
      intro acc m h
      unfold ubuntuParseAllGo at h
      by_cases h1 : l = ""
      · rw [if_pos h1] at h
        obtain ⟨hsub, hall⟩ := ih acc m h
        refine ⟨hsub, ?_⟩
        intro line hmem hban
        rcases List.mem_cons.mp hmem with rfl | hmem2
        · exfalso
          unfold ubuntuLineBanner at hban
          rw [h1] at hban
          simp at hban
        · exact hall line hmem2 hban
      · rw [if_neg h1] at h
        by_cases h2 : sStarts l "WARNING:" = true
        · rw [if_pos h2] at h
          obtain ⟨hsub, hall⟩ := ih acc m h
          refine ⟨hsub, ?_⟩
          intro line hmem hban
          rcases List.mem_cons.mp hmem with rfl | hmem2
          · exfalso
            unfold ubuntuLineBanner at hban
            rw [h2] at hban
            simp at hban
          · exact hall line hmem2 hban
        · rw [if_neg h2] at h
          by_cases h3 : sStarts l "Listing" = true
          · rw [if_pos h3] at h
            obtain ⟨hsub, hall⟩ := ih acc m h
            refine ⟨hsub, ?_⟩
            intro line hmem hban
            rcases List.mem_cons.mp hmem with rfl | hmem2
            · exfalso
              unfold ubuntuLineBanner at hban
              rw [h3] at hban
              simp at hban
            · exact hall line hmem2 hban
          · rw [if_neg h3] at h
            cases hp : ubuntuParsePkgLine l with
            | error e => rw [hp] at h; cases h
            | ok nv =>
                rw [hp] at h
                obtain ⟨hsub, hall⟩ := ih _ m h
                have hgr : ubuntuLineGrammar l = true := by
                  by_cases hg : ubuntuLineGrammar l = true
                  · exact hg
                  · rw [ubuntuParsePkgLine_error (by simpa using hg)] at hp
                    cases hp
                have hname : nv.1 = ubuntuLineName l := by
                  obtain ⟨v, hv⟩ := ubuntuParsePkgLine_ok hgr
                  rw [hv] at hp
                  cases hp
                  rfl
                refine ⟨fun k hk => hsub k ?_, ?_⟩
                · rw [show dKeys (dSet acc nv.1 nv.2) =
                    dKeys (dSet acc nv.1 nv.2) from rfl]
                  exact (dKeys_dSet acc nv.1 k nv.2).mpr (Or.inl hk)
                · intro line hmem hban
                  rcases List.mem_cons.mp hmem with rfl | hmem2
                  · refine ⟨hgr, ?_⟩
                    rw [← hname]
                    exact hsub nv.1
                      ((dKeys_dSet acc nv.1 nv.1 nv.2).mpr (Or.inr rfl))
                  · exact hall line hmem2 hban

lemma centosParseAllGo_ok :
    ∀ (lines : List String) (acc m : List (String × String)),
      centosParseAllGo lines acc = .ok m →
      (∀ k ∈ dKeys acc, k ∈ dKeys m) ∧
      ∀ line ∈ lines, centosLineBanner line = false →
        centosLineGrammar line = true ∧ centosLineName line ∈ dKeys m := by
  intro lines
  induction lines with
  | nil =>
      intro acc m h
      cases h
      exact ⟨fun k hk => hk, by simp⟩
  | cons l rest ih =>
      intro acc m h
      unfold centosParseAllGo at h
      by_cases h1 : sStarts l "Installed Packages" = true
      · rw [if_pos h1] at h
        obtain ⟨hsub, hall⟩ := ih acc m h
        refine ⟨hsub, ?_⟩
        intro line hmem hban
        rcases List.mem_cons.mp hmem with rfl | hmem2
        · exfalso
          unfold centosLineBanner at hban
          rw [h1] at hban
          cases hban
        · exact hall line hmem2 hban
      · rw [if_neg h1] at h
        cases hp : centosParsePkgLine l with
        | error e => rw [hp] at h; cases h
        | ok nv =>
            rw [hp] at h
            obtain ⟨hsub, hall⟩ := ih _ m h
            have hgr : centosLineGrammar l = true := by
              by_cases hg : centosLineGrammar l = true
              · exact hg
              · rw [centosParsePkgLine_error (by simpa using hg)] at hp
                cases hp
            have hname : nv.1 = centosLineName l := by
              obtain ⟨v, hv⟩ := centosParsePkgLine_ok hgr
              rw [hv] at hp
              cases hp
              rfl
            refine ⟨fun k hk =>
              hsub k ((dKeys_dSet acc nv.1 k nv.2).mpr (Or.inl hk)), ?_⟩
            intro line hmem hban
            rcases List.mem_cons.mp hmem with rfl | hmem2
            · refine ⟨hgr, ?_⟩
              rw [← hname]
              exact hsub nv.1
                ((dKeys_dSet acc nv.1 nv.1 nv.2).mpr (Or.inr rfl))
            · exact hall line hmem2 hban

/-- C8: for both backends, a line that is neither a recognized banner line
(`''`/`WARNING:`/`Listing` for apt, `Installed Packages` for yum) nor of the
backend's structural grammar (the `now ` separator for apt, at least two
whitespace tokens for yum) makes `parse_all_pkgs` raise (`IndexError`)
rather than return a mapping without it; and whenever parsing returns a
mapping, every non-banner line did satisfy the grammar and its parsed name
is a key of the mapping — a well-formed line is never dropped. -/
theorem c8_malformed_line_fatal :
    (∀ (lines : List String) (line : String), line ∈ lines →
      ubuntuLineBanner line = false → ubuntuLineGrammar line = false →
      ubuntuParseAllPkgs lines = .error .indexError) ∧
    (∀ (lines : List String) (m : List (String × String)),
      ubuntuParseAllPkgs lines = .ok m →
      ∀ line ∈ lines, ubuntuLineBanner line = false →
        ubuntuLineGrammar line = true ∧ ubuntuLineName line ∈ dKeys m) ∧
    (∀ (lines : List String) (line : String), line ∈ lines →
      centosLineBanner line = false → centosLineGrammar line = false →
      centosParseAllPkgs lines = .error .indexError) ∧
    (∀ (lines : List String) (m : List (String × String)),
      centosParseAllPkgs lines = .ok m →
      ∀ line ∈ lines, centosLineBanner line = false →
        centosLineGrammar line = true ∧ centosLineName line ∈ dKeys m) :=
  ⟨fun lines line hmem hban hgr =>
      ubuntuParseAllGo_error lines [] line hmem hban hgr,
    fun lines m h => (ubuntuParseAllGo_ok lines [] m h).2,
    fun lines line hmem hban hgr =>
      centosParseAllGo_error lines [] line hmem hban hgr,
    fun lines m h => (centosParseAllGo_ok lines [] m h).2⟩

theorem c8_malformed_line_fatal_witness :
    (("garbage" ∈ ["Listing...", "garbage"] ∧
        ubuntuLineBanner "garbage" = false ∧
        ubuntuLineGrammar "garbage" = false) ∧
      ubuntuParseAllPkgs ["Listing...", "garbage"] = .error .indexError) ∧
    ((ubuntuParseAllPkgs ["Listing...", "acc/bionic,now 0.6 amd64"] =
        .ok [("acc", "0.6")] ∧
        "acc/bionic,now 0.6 amd64" ∈ ["Listing...", "acc/bionic,now 0.6 amd64"] ∧
        ubuntuLineBanner "acc/bionic,now 0.6 amd64" = false) ∧
      (ubuntuLineGrammar "acc/bionic,now 0.6 amd64" = true ∧
        ubuntuLineName "acc/bionic,now 0.6 amd64" ∈ dKeys [("acc", "0.6")])) ∧
    (("stray" ∈ ["Installed Packages", "stray"] ∧
        centosLineBanner "stray" = false ∧
        centosLineGrammar "stray" = false) ∧
      centosParseAllPkgs ["Installed Packages", "stray"] = .error .indexError) ∧
    ((centosParseAllPkgs ["curl.x86_64 7.29.0-42.el7"] =
        .ok [("curl", "7.29.0")] ∧
        "curl.x86_64 7.29.0-42.el7" ∈ ["curl.x86_64 7.29.0-42.el7"] ∧
        centosLineBanner "curl.x86_64 7.29.0-42.el7" = false) ∧
      (centosLineGrammar "curl.x86_64 7.29.0-42.el7" = true ∧
        centosLineName "curl.x86_64 7.29.0-42.el7" ∈
          dKeys [("curl", "7.29.0")])) :=
  ⟨⟨⟨by decide, by decide, by decide⟩,
      c8_malformed_line_fatal.1 ["Listing...", "garbage"] "garbage"
        (by decide) (by decide) (by decide)⟩,
    ⟨⟨by decide, by decide, by decide⟩,
      c8_malformed_line_fatal.2.1 ["Listing...", "acc/bionic,now 0.6 amd64"]
        [("acc", "0.6")] (by decide) "acc/bionic,now 0.6 amd64" (by decide)
        (by decide)⟩,
    ⟨⟨by decide, by decide, by decide⟩,
      c8_malformed_line_fatal.2.2.1 ["Installed Packages", "stray"] "stray"
        (by decide) (by decide) (by decide)⟩,
    ⟨⟨by decide, by decide, by decide⟩,
      c8_malformed_line_fatal.2.2.2 ["curl.x86_64 7.29.0-42.el7"]
        [("curl", "7.29.0")] (by decide) "curl.x86_64 7.29.0-42.el7"
        (by decide) (by decide)⟩⟩

/-! ## C1 / C6: classification properties -/

lemma fileBranch_added_mem {vm : Bool} {ch : List String}
    {jc sh jv : Finset String} {g : String}
    (h : fileBranch vm ch jc sh jv g = some .added) : g ∈ jv := by
  unfold fileBranch at h
  split_ifs at h <;> simp_all

lemma fileBranch_deleted_mem {vm : Bool} {ch : List String}
    {jc sh jv : Finset String} {g : String}
    (h : fileBranch vm ch jc sh jv g = some .deleted) : g ∈ jc := by
  unfold fileBranch at h
  split_ifs at h <;> simp_all

lemma fileBranch_modified_mem {vm : Bool} {ch : List String}
    {jc sh jv : Finset String} {g : String}
    (h : fileBranch vm ch jc sh jv g = some .modified) : g ∈ sh := by
  unfold fileBranch at h
  split_ifs at h <;> simp_all

lemma fileBranch_verMismatch_mem {vm : Bool} {ch : List String}
    {jc sh jv : Finset String} {g : String}
    (h : fileBranch vm ch jc sh jv g = some .verMismatch) :
    g ∈ jv ∨ g ∈ sh := by
  unfold fileBranch at h
  split_ifs at h <;> simp_all

lemma fileBranch_none_of_not_mem {vm : Bool} {ch : List String}
    {jc sh jv : Finset String} {g : String} (h1 : g ∉ jc) (h2 : g ∉ jv)
    (h3 : g ∉ sh) : fileBranch vm ch jc sh jv g = none := by
  unfold fileBranch
  split_ifs <;> simp_all

lemma fileBranch_ne_none_of_mem {vm : Bool} {ch : List String}
    {jc sh jv : Finset String} {g : String}
    (h : g ∈ jc ∨ g ∈ jv ∨ g ∈ sh) :
    fileBranch vm ch jc sh jv g ≠ none := by
  unfold fileBranch
  split_ifs <;> simp_all

lemma entry_eq_of_nodup_keys {α : Type} {l : List (String × α)}
    (hnd : (dKeys l).Nodup) {e1 e2 : String × α} (h1 : e1 ∈ l) (h2 : e2 ∈ l)
    (hk : e1.1 = e2.1) : e1 = e2 := by
  induction l with
  | nil => simp at h1
  | cons e es ih =>
      unfold dKeys at hnd
      simp only [List.map_cons, List.nodup_cons] at hnd
      rcases List.mem_cons.mp h1 with rfl | h1tl
      · rcases List.mem_cons.mp h2 with rfl | h2tl
        · rfl
        · exfalso
          exact hnd.1 (hk ▸ List.mem_map.mpr ⟨e2, h2tl, rfl⟩)
      · rcases List.mem_cons.mp h2 with rfl | h2tl
        · exfalso
          exact hnd.1 (hk ▸ List.mem_map.mpr ⟨e1, h1tl, rfl⟩)
        · exact ih hnd.2 h1tl h2tl

/-- C1 counterexample: one package `p` whose versions match between sides
owns the single file `f`, and `f` lies in the only-replica (container-only)
set; the code classifies it *deleted*, not *added* as the claim requires. -/
theorem c1_counterexample :
    versionMatched [("p", "1")] "p" "1" = true ∧
    "f" ∉ (examine_files_and_packages [("p", "1")] (fun _ => ["f"])
      [("p", "1")] (fun _ => []) {"f"} ∅ ∅).added ∧
    "f" ∈ (examine_files_and_packages [("p", "1")] (fun _ => ["f"])
      [("p", "1")] (fun _ => []) {"f"} ∅ ∅).deleted := by
  decide

/-- C1 (amended): in the classification loop the roles of the two
"only on one side" sets are the *reverse* of the claim — for a package whose
version matches, an owned file in the only-source (VM-only) set is put in
*added*, an owned file in the only-replica (container-only) set is put in
*deleted*, an owned file in the shared-with-checksum-mismatch set is put in
*modified*, and a file in none of the three sets is dropped (appears in no
bucket); moreover every owned file in the only-replica set (outside the
only-source set) is classified *deleted* regardless of version match. -/
theorem c1_amended (allPkgs : List (String × String))
    (filesOf : String → List String) (contPkgs : List (String × String))
    (changedOf : String → List String) (jc sh jv : Finset String)
    (p ver f : String) (R : FileReport)
    (hR : R = examine_files_and_packages allPkgs filesOf contPkgs changedOf
      jc sh jv)
    (hmem : (p, ver) ∈ allPkgs) (hf : f ∈ filesOf p) :
    (versionMatched contPkgs p ver = true → f ∈ jv → f ∈ R.added) ∧
    (f ∉ jv → f ∈ jc → f ∈ R.deleted) ∧
    (versionMatched contPkgs p ver = true → f ∉ jv → f ∉ jc → f ∈ sh →
      f ∈ R.modified) ∧
    (∀ g, g ∉ jc → g ∉ jv → g ∉ sh →
      g ∉ R.added ∧ g ∉ R.deleted ∧ g ∉ R.modified ∧ g ∉ R.verMismatch ∧
        g ∉ R.unassoc) := by
  subst hR
  unfold examine_files_and_packages
  refine ⟨?_, ?_, ?_, ?_⟩
  · intro hvm hjv
    show f ∈ bucketOf (examineCore allPkgs filesOf contPkgs changedOf jc sh jv)
      .added
    rw [examineCore_bucket]
    exact ⟨(p, ver), hmem, hf, by simp [fileBranch, hvm, hjv]⟩
  · intro hjv hjc
    show f ∈ bucketOf (examineCore allPkgs filesOf contPkgs changedOf jc sh jv)
      .deleted
    rw [examineCore_bucket]
    refine ⟨(p, ver), hmem, hf, ?_⟩
    cases hvm : versionMatched contPkgs p ver <;>
      simp [fileBranch, hvm, hjv, hjc]
  · intro hvm hjv hjc hsh
    show f ∈ bucketOf (examineCore allPkgs filesOf contPkgs changedOf jc sh jv)
      .modified
    rw [examineCore_bucket]
    exact ⟨(p, ver), hmem, hf, by simp [fileBranch, hvm, hjv, hjc, hsh]⟩
  · intro g hgc hgv hgs
    have hbuck : ∀ t : FileTag,
        g ∉ bucketOf (examineCore allPkgs filesOf contPkgs changedOf jc sh jv)
          t := by
      intro t ht
      rw [examineCore_bucket] at ht
      obtain ⟨e, _, _, hb⟩ := ht
      rw [fileBranch_none_of_not_mem hgc hgv hgs] at hb
      cases hb
    refine ⟨hbuck .added, hbuck .deleted, hbuck .modified, hbuck .verMismatch,
      ?_⟩
    intro hg
    simp only [Finset.mem_union, Finset.mem_sdiff] at hg
    rcases hg with (⟨h, _⟩ | ⟨h, _⟩) | ⟨h, _⟩
    · exact hgc h
    · exact hgv h
    · exact hgs h

theorem c1_amended_witness :
    ("f" ∈ ({"f"} : Finset String) ∧ ("p", "1") ∈ [("p", "1")] ∧
      "f" ∈ ["f"] ∧ versionMatched [("p", "1")] "p" "1" = true) ∧
    "f" ∈ (examine_files_and_packages [("p", "1")] (fun _ => ["f"])
      [("p", "1")] (fun _ => []) ∅ ∅ {"f"}).added :=
  ⟨⟨by decide, by decide, by decide, by decide⟩,
    (c1_amended [("p", "1")] (fun _ => ["f"]) [("p", "1")] (fun _ => [])
      ∅ ∅ {"f"} "p" "1" "f" _ rfl (by decide) (by decide)).1 (by decide)
      (by decide)⟩

/-- C6 counterexample: the file `f` is owned by both `p1` (version matches)
and `p2` (version mismatch, probe reports no changed files); with `f` in the
only-source set, `p1` classifies it *added* while `p2` classifies it
*version-mismatch* — the buckets are not pairwise disjoint for shared
ownership. -/
theorem c6_counterexample :
    "f" ∈ (examine_files_and_packages [("p1", "1"), ("p2", "1")]
      (fun _ => ["f"]) [("p1", "1")] (fun _ => []) ∅ ∅ {"f"}).added ∧
    "f" ∈ (examine_files_and_packages [("p1", "1"), ("p2", "1")]
      (fun _ => ["f"]) [("p1", "1")] (fun _ => []) ∅ ∅ {"f"}).verMismatch := by
  decide

/-- C6 (amended): under the implicit preconditions that the package dict has
distinct names and that no file is owned by two distinct packages, the five
buckets are pairwise disjoint, and their union together with the dropped
identical-shared files (`S \ m`, for `m` the checksum-mismatch part of the
full shared set `S` that the classifier receives) equals
onlyReplica ∪ S ∪ onlySource. -/
theorem c6_amended (allPkgs : List (String × String))
    (filesOf : String → List String) (contPkgs : List (String × String))
    (changedOf : String → List String) (jc m jv S : Finset String)
    (R : FileReport)
    (hR : R = examine_files_and_packages allPkgs filesOf contPkgs changedOf
      jc m jv)
    (hnd : (dKeys allPkgs).Nodup)
    (hown : ∀ p q : String, p ≠ q → ∀ g, g ∈ filesOf p → g ∈ filesOf q →
      False)
    (hms : m ⊆ S) :
    (reportBuckets R).Pairwise Disjoint ∧
    reportUnion R ∪ (S \ m) = jc ∪ S ∪ jv := by
  subst hR
  set core := examineCore allPkgs filesOf contPkgs changedOf jc m jv with hcore
  have hfield : examine_files_and_packages allPkgs filesOf contPkgs changedOf
      jc m jv = ⟨core.added, core.deleted, core.modified, core.verMismatch,
      (jc \ core.seen) ∪ (jv \ core.seen) ∪ (m \ core.seen)⟩ := rfl
  have hbucket : ∀ (t : FileTag) (g : String), g ∈ bucketOf core t ↔
      ∃ e ∈ allPkgs, g ∈ filesOf e.1 ∧
        fileBranch (versionMatched contPkgs e.1 e.2) (changedOf e.1) jc m jv g
          = some t := fun t g => examineCore_bucket _ _ _ _ _ _ _ t g
  have hseen : ∀ g : String, g ∈ core.seen ↔ ∃ e ∈ allPkgs, g ∈ filesOf e.1 :=
    fun g => examineCore_seen _ _ _ _ _ _ _ g
  have huniq : ∀ (g : String) (t1 t2 : FileTag), g ∈ bucketOf core t1 →
      g ∈ bucketOf core t2 → t1 = t2 := by
    intro g t1 t2 h1 h2
    obtain ⟨e1, he1, hf1, hb1⟩ := (hbucket t1 g).mp h1
    obtain ⟨e2, he2, hf2, hb2⟩ := (hbucket t2 g).mp h2
    have hkeys : e1.1 = e2.1 := by
      by_contra hne
      exact hown e1.1 e2.1 hne g hf1 hf2
    have he12 : e1 = e2 := entry_eq_of_nodup_keys hnd he1 he2 hkeys
    subst he12
    rw [hb1] at hb2
    exact Option.some.inj hb2
  have hdisj : ∀ t1 t2 : FileTag, t1 ≠ t2 →
      Disjoint (bucketOf core t1) (bucketOf core t2) := by
    intro t1 t2 hne
    rw [Finset.disjoint_left]
    intro g hg1 hg2
    exact hne (huniq g t1 t2 hg1 hg2)
  have hseen_of_bucket : ∀ (t : FileTag) (g : String), g ∈ bucketOf core t →
      g ∈ core.seen := by
    intro t g hg
    obtain ⟨e, he, hf, _⟩ := (hbucket t g).mp hg
    exact (hseen g).mpr ⟨e, he, hf⟩
  have hdisju : ∀ t : FileTag, Disjoint (bucketOf core t)
      ((jc \ core.seen) ∪ (jv \ core.seen) ∪ (m \ core.seen)) := by
    intro t
    rw [Finset.disjoint_left]
    intro g hg1 hg2
    have hs := hseen_of_bucket t g hg1
    simp only [Finset.mem_union, Finset.mem_sdiff] at hg2
    rcases hg2 with (⟨_, h⟩ | ⟨_, h⟩) | ⟨_, h⟩ <;> exact h hs
  constructor
  · rw [hfield]
    unfold reportBuckets
    refine List.Pairwise.cons ?_ (List.Pairwise.cons ?_ (List.Pairwise.cons ?_
      (List.Pairwise.cons ?_ (List.Pairwise.cons ?_ List.Pairwise.nil))))
    · intro b hb
      simp only [List.mem_cons, List.not_mem_nil, or_false] at hb
      rcases hb with rfl | rfl | rfl | rfl
      · exact hdisj .added .deleted (by decide)
      · exact hdisj .added .modified (by decide)
      · exact hdisj .added .verMismatch (by decide)
      · exact hdisju .added
    · intro b hb
      simp only [List.mem_cons, List.not_mem_nil, or_false] at hb
      rcases hb with rfl | rfl | rfl
      · exact hdisj .deleted .modified (by decide)
      · exact hdisj .deleted .verMismatch (by decide)
      · exact hdisju .deleted
    · intro b hb
      simp only [List.mem_cons, List.not_mem_nil, or_false] at hb
      rcases hb with rfl | rfl
      · exact hdisj .modified .verMismatch (by decide)
      · exact hdisju .modified
    · intro b hb
      simp only [List.mem_cons, List.not_mem_nil, or_false] at hb
      rcases hb with rfl
      · exact hdisju .verMismatch
    · intro b hb
      simp only [List.not_mem_nil] at hb
  · have hcoreU : core.added ∪ core.deleted ∪ core.modified ∪
        core.verMismatch ∪
        ((jc \ core.seen) ∪ (jv \ core.seen) ∪ (m \ core.seen)) =
        jc ∪ jv ∪ m := by
      ext g
      simp only [Finset.mem_union, Finset.mem_sdiff]
      constructor
      · rintro ((((ha | hd) | hm2) | hv) | hu)
        · exact Or.inl (Or.inr (fileBranch_added_mem
            (((hbucket .added g).mp ha).choose_spec.2.2)))
        · exact Or.inl (Or.inl (fileBranch_deleted_mem
            (((hbucket .deleted g).mp hd).choose_spec.2.2)))
        · exact Or.inr (fileBranch_modified_mem
            (((hbucket .modified g).mp hm2).choose_spec.2.2))
        · rcases fileBranch_verMismatch_mem
            (((hbucket .verMismatch g).mp hv).choose_spec.2.2) with h | h
          · exact Or.inl (Or.inr h)
          · exact Or.inr h
        · rcases hu with (⟨h, _⟩ | ⟨h, _⟩) | ⟨h, _⟩
          · exact Or.inl (Or.inl h)
          · exact Or.inl (Or.inr h)
          · exact Or.inr h
      · intro h3
        by_cases hgseen : g ∈ core.seen
        · obtain ⟨e, he, hf⟩ := (hseen g).mp hgseen
          have hne := @fileBranch_ne_none_of_mem
            (versionMatched contPkgs e.1 e.2) (changedOf e.1)
            jc m jv g
            (by rcases h3 with (h | h) | h
                · exact Or.inl h
                · exact Or.inr (Or.inl h)
                · exact Or.inr (Or.inr h))
          cases hb : fileBranch (versionMatched contPkgs e.1 e.2)
              (changedOf e.1) jc m jv g with
          | none => exact absurd hb hne
          | some t =>
              have hbm := (hbucket t g).mpr ⟨e, he, hf, hb⟩
              cases t with
              | added => exact Or.inl (Or.inl (Or.inl (Or.inl hbm)))
              | deleted => exact Or.inl (Or.inl (Or.inl (Or.inr hbm)))
              | modified => exact Or.inl (Or.inl (Or.inr hbm))
              | verMismatch => exact Or.inl (Or.inr hbm)
        · refine Or.inr ?_
          rcases h3 with (hjc | hjv) | hm3
          · exact Or.inl (Or.inl ⟨hjc, hgseen⟩)
          · exact Or.inl (Or.inr ⟨hjv, hgseen⟩)
          · exact Or.inr ⟨hm3, hgseen⟩
    rw [hfield]
    unfold reportUnion
    rw [show (⟨core.added, core.deleted, core.modified, core.verMismatch,
      (jc \ core.seen) ∪ (jv \ core.seen) ∪ (m \ core.seen)⟩ :
      FileReport).added = core.added from rfl]
    rw [hcoreU]
    ext g
    simp only [Finset.mem_union, Finset.mem_sdiff]
    constructor
    · rintro (((hjc | hjv) | hm3) | ⟨hS, _⟩)
      · exact Or.inl (Or.inl hjc)
      · exact Or.inr hjv
      · exact Or.inl (Or.inr (hms hm3))
      · exact Or.inl (Or.inr hS)
    · rintro ((hjc | hS) | hjv)
      · exact Or.inl (Or.inl (Or.inl hjc))
      · by_cases hgm : g ∈ m
        · exact Or.inl (Or.inr hgm)
        · exact Or.inr ⟨hS, hgm⟩
      · exact Or.inl (Or.inl (Or.inr hjv))

theorem c6_amended_witness :
    ((dKeys [("p1", "1")]).Nodup ∧
      (∀ p q : String, p ≠ q → ∀ g,
        g ∈ (fun x => if x = "p1" then ["a"] else []) p →
        g ∈ (fun x => if x = "p1" then ["a"] else []) q → False) ∧
      (({"f1"} : Finset String) ⊆ {"f1", "f2"})) ∧
    ((reportBuckets (examine_files_and_packages [("p1", "1")]
        (fun x => if x = "p1" then ["a"] else []) [("p1", "1")]
        (fun _ => []) ∅ {"f1"} {"a"})).Pairwise Disjoint ∧
      reportUnion (examine_files_and_packages [("p1", "1")]
        (fun x => if x = "p1" then ["a"] else []) [("p1", "1")]
        (fun _ => []) ∅ {"f1"} {"a"}) ∪
        (({"f1", "f2"} : Finset String) \ {"f1"}) =
        ∅ ∪ {"f1", "f2"} ∪ {"a"}) := by
  have hown : ∀ p q : String, p ≠ q → ∀ g,
      g ∈ (fun x => if x = "p1" then ["a"] else []) p →
      g ∈ (fun x => if x = "p1" then ["a"] else []) q → False := by
    intro p q hpq g hgp hgq
    by_cases hp : p = "p1"
    · have hq : q ≠ "p1" := fun hc => hpq (hp.trans hc.symm)
      simp only [if_neg hq] at hgq
      exact absurd hgq (List.not_mem_nil g)
    · simp only [if_neg hp] at hgp
      exact absurd hgp (List.not_mem_nil g)
  exact ⟨⟨by decide, hown, by decide⟩,
    c6_amended [("p1", "1")] (fun x => if x = "p1" then ["a"] else [])
      [("p1", "1")] (fun _ => []) ∅ {"f1"} {"a"} {"f1", "f2"} _ rfl
      (by decide) hown (by decide)⟩

/-! ## C2 / C3 / C4: verification-engine lemmas -/

lemma dKeys_map_fst_preserved {α : Type} (u : List (String × α))
    (f : String × α → String × α) (hf : ∀ e, (f e).1 = e.1) :
    dKeys (u.map f) = dKeys u := by
  unfold dKeys
  rw [List.map_map]
  exact List.map_congr_left (fun e _ => hf e)

/-- After a successful `ubuntuFallbackReverify`, `install` is unchanged, the
`unversion` key set is unchanged (only values are rewritten), and the held
image is the freshly built prelude image. -/
lemma ubuntuFallbackReverify_ok_state {exec : String → String}
    {listOut : ImageRef → String} {s st' : UbuntuState} {b : Bool}
    (h : ubuntuFallbackReverify exec listOut s = .ok (st', b)) :
    st'.install = s.install ∧ dKeys st'.unversion = dKeys s.unversion ∧
    st'.image = ImageRef.built (ubuntuPrelude s) := by
  unfold ubuntuFallbackReverify at h
  cases hasm : ubuntuAssemble { s with image := .built (ubuntuPrelude s) } with
  | error e =>
      simp only [Bind.bind, Except.bind, hasm] at h
      cases h
  | ok asm =>
      simp only [Bind.bind, Except.bind, hasm] at h
      split_ifs at h with h1 h2
      · cases h
        exact ⟨rfl, rfl, rfl⟩
      · cases h
        exact ⟨rfl, rfl, rfl⟩
      · cases hp : ubuntuParseAllPkgs (pyLines (listOut
            (ImageRef.built (ubuntuPrelude s)))) with
        | error e =>
            simp only [hp] at h
            cases h
        | ok parsed =>
            simp only [hp] at h
            cases h
            refine ⟨rfl, ?_, rfl⟩
            exact dKeys_map_fst_preserved _ _ (fun e => by
              cases dGet parsed e.1 <;> rfl)

lemma foldlM_ok_of_steps {α β : Type}
    (f : β → α → Except PyErr β) :
    ∀ (l : List α), (∀ (b : β) (a : α), a ∈ l → ∃ b', f b a = .ok b') →
      ∀ acc, ∃ r, l.foldlM f acc = .ok r := by
  intro l
  induction l with
  | nil => intro _ acc; exact ⟨acc, rfl⟩
  | cons x xs ih =>
      intro hl acc
      obtain ⟨b', hb'⟩ := hl acc x (by simp)
      obtain ⟨r, hr⟩ := ih (fun b a ha => hl b a (by simp [ha])) b'
      refine ⟨r, ?_⟩
      rw [List.foldlM_cons, hb']
      exact hr

lemma dIndex_ok_of_mem {α : Type} {d : List (String × α)} {k : String}
    (h : k ∈ dKeys d) : ∃ v, dIndex d k = .ok v := by
  have := (dGet_isSome_iff d k).mpr h
  cases hv : dGet d k with
  | none => rw [hv] at this; cases this
  | some v =>
      refine ⟨v, ?_⟩
      unfold dIndex
      rw [hv]

/-- `_assemble_packages` succeeds whenever every unversioned name is still a
key of `all_packages`. -/
lemma ubuntuAssemble_ok {st : UbuntuState}
    (h : ∀ p ∈ dKeys st.unversion, p ∈ dKeys st.all) :
    ∃ a, ubuntuAssemble st = .ok a := by
  unfold ubuntuAssemble
  have hsteps : ∀ (acc : String × String) (e : String × Option String),
      e ∈ st.unversion → ∃ r,
        (do
          let oldVer ← dIndex st.all e.1
          match e.2 with
          | some newVer =>
              pure (acc.1 ++ e.1 ++ ": " ++ oldVer ++ "->" ++ newVer ++ " ",
                acc.2 ++ e.1 ++ "=" ++ newVer ++ " ")
          | none =>
              pure (acc.1 ++ e.1 ++ ": " ++ oldVer ++ "->? ",
                acc.2 ++ e.1 ++ " ") :
          Except PyErr (String × String)) = .ok r := by
    intro acc e he
    obtain ⟨v, hv⟩ := dIndex_ok_of_mem
      (h e.1 (List.mem_map.mpr ⟨e, he, rfl⟩))
    cases he2 : e.2 with
    | none =>
        refine ⟨(acc.1 ++ e.1 ++ ": " ++ v ++ "->? ",
          acc.2 ++ e.1 ++ " "), ?_⟩
        simp only [Bind.bind, Except.bind, hv, he2]
        rfl
    | some newVer =>
        refine ⟨(acc.1 ++ e.1 ++ ": " ++ v ++ "->" ++ newVer ++ " ",
          acc.2 ++ e.1 ++ "=" ++ newVer ++ " "), ?_⟩
        simp only [Bind.bind, Except.bind, hv, he2]
        rfl
  obtain ⟨r, hr⟩ := foldlM_ok_of_steps _ st.unversion
    (fun acc e he => hsteps acc e he) ("", "")
  rw [hr]
  exact ⟨_, rfl⟩

/-- Under marker-consistent outputs (any output yielding a parse match also
carries the `E: ` marker) and a well-formed `unversion ⊆ all`,
`ubuntuFallbackReverify` returns `False`. -/
lemma ubuntuFallbackReverify_ok_false {exec : String → String}
    {listOut : ImageRef → String} {s : UbuntuState}
    (hall : ∀ p ∈ dKeys s.unversion, p ∈ dKeys s.all)
    (hma : ∀ cmd : String,
      (aptMissingPkgs (exec cmd) ≠ [] ∨ aptMissingVers (exec cmd) ≠ []) →
      aptHasErr (exec cmd) = true) :
    ∃ st', ubuntuFallbackReverify exec listOut s = .ok (st', false) := by
  unfold ubuntuFallbackReverify
  obtain ⟨a, ha⟩ := @ubuntuAssemble_ok
    { s with image := .built (ubuntuPrelude s) } hall
  simp only [Bind.bind, Except.bind, ha]
  by_cases h1 : aptMissingPkgs (exec (ubuntuInstallCmd a.1 a.2.2)) = [] ∧
      aptMissingVers (exec (ubuntuInstallCmd a.1 a.2.2)) = []
  · rw [if_pos h1]
    exact ⟨_, rfl⟩
  · rw [if_neg h1]
    have hE : aptHasErr (exec (ubuntuInstallCmd a.1 a.2.2)) = true := by
      apply hma
      by_cases hmp : aptMissingPkgs (exec (ubuntuInstallCmd a.1 a.2.2)) = []
      · exact Or.inr (fun hc => h1 ⟨hmp, hc⟩)
      · exact Or.inl hmp
    rw [if_pos (by rw [hE]; rfl)]
    exact ⟨_, rfl⟩

lemma not_mem_keys_foldl_dPopTry {α : Type} {M : List String}
    {d : List (String × α)} {p : String} (hnd : M.Nodup) (hp : p ∈ M) :
    p ∉ dKeys (M.foldl dPopTry d) := by
  intro hmem
  have := (dGet_isSome_iff (M.foldl dPopTry d) p).mpr hmem
  rw [dGet_foldl_mem dPopTry (fun _ _ => none)
    (fun d q r hne => dGet_dRemove_other d hne)
    (fun d q => dGet_dRemove_self d q) M hnd d p hp] at this
  cases this

lemma mem_keys_foldl_dPopTry {α : Type} :
    ∀ (M : List String) (d : List (String × α)) (p : String),
      p ∈ dKeys (M.foldl dPopTry d) → p ∈ dKeys d := by
  intro M
  induction M with
  | nil => intro d p h; exact h
  | cons q rest ih =>
      intro d p h
      rw [List.foldl_cons] at h
      exact ((dKeys_dRemove d q p).mp (ih _ p h)).1

lemma mem_keys_foldl_dSet {α : Type} (v0 : α) :
    ∀ (M : List String) (d : List (String × α)) (p : String),
      p ∈ dKeys (M.foldl (fun d q => dSet d q v0) d) ↔
        p ∈ dKeys d ∨ p ∈ M := by
  intro M
  induction M with
  | nil => intro d p; simp
  | cons q rest ih =>
      intro d p
      rw [List.foldl_cons, ih, dKeys_dSet]
      constructor
      · rintro ((h | h) | h)
        · exact Or.inl h
        · exact Or.inr (by simp [h])
        · exact Or.inr (by simp [h])
      · rintro (h | h)
        · exact Or.inl (Or.inl h)
        · rcases List.mem_cons.mp h with rfl | h
          · exact Or.inl (Or.inr rfl)
          · exact Or.inr h

lemma ubuntuRunFallback_delete_state {exec : String → String}
    {listOut : ImageRef → String} {missing : List String}
    {st st' : UbuntuState} {b : Bool}
    (hnd : missing.Nodup) (hsub : ∀ p ∈ missing, p ∈ dKeys st.install)
    (h : ubuntuRunFallback exec listOut missing .delete st = .ok (st', b)) :
    st'.install = missing.foldl dPopTry st.install ∧
    dKeys st'.unversion = dKeys (missing.foldl dPopTry st.unversion) := by
  unfold ubuntuRunFallback at h
  simp only [Bind.bind, Except.bind,
    foldlM_dPop_ok missing st.install hnd hsub] at h
  obtain ⟨h1, h2, _⟩ := ubuntuFallbackReverify_ok_state h
  exact ⟨h1, h2⟩

lemma ubuntuRunFallback_unversion_state {exec : String → String}
    {listOut : ImageRef → String} {missing : List String}
    {st st' : UbuntuState} {b : Bool}
    (hnd : missing.Nodup) (hsub : ∀ p ∈ missing, p ∈ dKeys st.install)
    (h : ubuntuRunFallback exec listOut missing .unversion st = .ok (st', b)) :
    st'.install = missing.foldl dPopTry st.install ∧
    dKeys st'.unversion =
      dKeys (missing.foldl (fun d p => dSet d p none) st.unversion) ∧
    st'.image = ImageRef.built (ubuntuPrelude st) := by
  unfold ubuntuRunFallback at h
  simp only [Bind.bind, Except.bind,
    foldlM_dPop_ok missing st.install hnd hsub] at h
  obtain ⟨h1, h2, h3⟩ := ubuntuFallbackReverify_ok_state h
  exact ⟨h1, h2, h3⟩

lemma ubuntuRunFallback_ok_false {exec : String → String}
    {listOut : ImageRef → String} {missing : List String} {st : UbuntuState}
    (mode : Mode)
    (hma : ∀ cmd : String,
      (aptMissingPkgs (exec cmd) ≠ [] ∨ aptMissingVers (exec cmd) ≠ []) →
      aptHasErr (exec cmd) = true)
    (hnd : missing.Nodup) (hsub : ∀ p ∈ missing, p ∈ dKeys st.install)
    (hallu : ∀ p ∈ dKeys st.unversion, p ∈ dKeys st.all)
    (halli : ∀ p ∈ dKeys st.install, p ∈ dKeys st.all) :
    ∃ st', ubuntuRunFallback exec listOut missing mode st = .ok (st', false)
    := by
  cases mode with
  | dry => exact ⟨st, rfl⟩
  | delete =>
      unfold ubuntuRunFallback
      simp only [Bind.bind, Except.bind,
        foldlM_dPop_ok missing st.install hnd hsub]
      exact ubuntuFallbackReverify_ok_false
        (fun p hp => hallu p (mem_keys_foldl_dPopTry missing st.unversion p hp))
        hma
  | unversion =>
      unfold ubuntuRunFallback
      simp only [Bind.bind, Except.bind,
        foldlM_dPop_ok missing st.install hnd hsub]
      refine ubuntuFallbackReverify_ok_false ?_ hma
      intro p hp
      rcases (mem_keys_foldl_dSet none missing st.unversion p).mp hp with h | h
      · exact hallu p h
      · exact halli p (hsub p h)

lemma ubuntuVerify_partial_false {exec : String → String}
    {listOut : ImageRef → String} {st : UbuntuState}
    (hma : ∀ cmd : String,
      (aptMissingPkgs (exec cmd) ≠ [] ∨ aptMissingVers (exec cmd) ≠ []) →
      aptHasErr (exec cmd) = true)
    (hallu : ∀ p ∈ dKeys st.unversion, p ∈ dKeys st.all)
    (halli : ∀ p ∈ dKeys st.install, p ∈ dKeys st.all)
    (hnd : (ubuntuFirstMissing exec st).Nodup)
    (hsub : ∀ p ∈ ubuntuFirstMissing exec st, p ∈ dKeys st.install)
    (hpar : ubuntuFirstMissing exec st ≠ []) (mode : Mode) :
    ∃ st', ubuntuVerify exec listOut mode st = .ok (st', false) := by
  obtain ⟨a, ha⟩ := @ubuntuAssemble_ok
    { st with image := .built (ubuntuPrelude st) } hallu
  have ha' : ubuntuAssemble st = .ok a := ha
  unfold ubuntuFirstMissing at hnd hsub hpar
  simp only [ha'] at hnd hsub hpar
  have hinst : ¬ st.install = [] := by
    intro hc
    rcases List.exists_mem_of_ne_nil _ hpar with ⟨p, hp⟩
    have := hsub p hp
    rw [hc] at this
    simp [dKeys] at this
  unfold ubuntuVerify
  rw [if_neg hinst]
  simp only [Bind.bind, Except.bind, ha]
  have hE : aptHasErr (exec (ubuntuInstallCmd a.1 a.2.2)) = true := by
    apply hma
    by_cases hmp : aptMissingPkgs (exec (ubuntuInstallCmd a.1 a.2.2)) = []
    · refine Or.inr ?_
      intro hc
      exact hpar (by rw [hmp, hc]; rfl)
    · exact Or.inl hmp
  rw [if_neg (by rw [hE]; simp)]
  rw [if_neg (by
    rintro ⟨h1, h2⟩
    exact hpar (by rw [h1, h2]; rfl))]
  exact ubuntuRunFallback_ok_false mode hma hnd hsub hallu halli

lemma baseVerify_partial_false {render : BaseState → String}
    {listOut : ImageRef → String}
    {parse : List String → Except PyErr (List (String × String))}
    {st : BaseState}
    (hne : st.install ≠ []) (hkn : (dKeys st.install).Nodup)
    (hparse : ∃ r, parse (pyLines (listOut ImageRef.pulled)) = .ok r)
    (hmiss : baseMissing render listOut st ≠ []) (mode : Mode) :
    ∃ st', baseVerify render listOut parse mode st = .ok (st', false) := by
  unfold baseVerify
  rw [if_neg hne]
  simp only [Bind.bind, Except.bind]
  rw [if_neg hmiss]
  cases mode with
  | dry => exact ⟨_, rfl⟩
  | delete =>
      have hndm : (baseMissing render listOut st).Nodup :=
        List.Nodup.filter _ hkn
      have hsubm : ∀ p ∈ baseMissing render listOut st,
          p ∈ dKeys st.install :=
        fun p hp => List.mem_of_mem_filter hp
      simp only [foldlM_dPop_ok (baseMissing render listOut st) st.install
        hndm hsubm]
      exact ⟨_, rfl⟩
  | unversion =>
      obtain ⟨r, hr⟩ := hparse
      simp only [hr]
      exact ⟨_, rfl⟩

lemma baseVerify_delete_state {render : BaseState → String}
    {listOut : ImageRef → String}
    {parse : List String → Except PyErr (List (String × String))}
    {st st' : BaseState} {b : Bool}
    (hkn : (dKeys st.install).Nodup)
    (h : baseVerify render listOut parse .delete st = .ok (st', b)) :
    st'.unversion = st.unversion ∧
    ((baseMissing render listOut st = [] → st'.install = st.install) ∧
      (baseMissing render listOut st ≠ [] →
        st'.install =
          (baseMissing render listOut st).foldl dPopTry st.install)) := by
  unfold baseVerify at h
  by_cases hinst : st.install = []
  · rw [if_pos hinst] at h
    cases h
  · rw [if_neg hinst] at h
    simp only [Bind.bind, Except.bind] at h
    by_cases hm : baseMissing render listOut st = []
    · rw [if_pos hm] at h
      cases h
      exact ⟨rfl, fun _ => rfl, fun hc => absurd hm hc⟩
    · rw [if_neg hm] at h
      have hndm : (baseMissing render listOut st).Nodup :=
        List.Nodup.filter _ hkn
      have hsubm : ∀ p ∈ baseMissing render listOut st,
          p ∈ dKeys st.install :=
        fun p hp => List.mem_of_mem_filter hp
      simp only [foldlM_dPop_ok (baseMissing render listOut st) st.install
        hndm hsubm] at h
      cases h
      exact ⟨rfl, fun hc => absurd hc hm, fun _ => rfl⟩

lemma baseRecover_install (parsed : List (String × String)) :
    ∀ (missing : List String) (s : BaseState),
      (missing.foldl
        (fun (s : BaseState) p =>
          match dGet parsed p with
          | some v =>
              { s with
                install := dSet s.install p (some v)
                unversion := dSet s.unversion p (some v) }
          | none => s)
        s).install =
      missing.foldl
        (fun d p =>
          match dGet parsed p with
          | some v => dSet d p (some v)
          | none => d)
        s.install := by
  intro missing
  induction missing with
  | nil => intro s; rfl
  | cons q rest ih =>
      intro s
      rw [List.foldl_cons, List.foldl_cons, ih]
      cases dGet parsed q <;> rfl

lemma baseRecover_unversion (parsed : List (String × String)) :
    ∀ (missing : List String) (s : BaseState),
      (missing.foldl
        (fun (s : BaseState) p =>
          match dGet parsed p with
          | some v =>
              { s with
                install := dSet s.install p (some v)
                unversion := dSet s.unversion p (some v) }
          | none => s)
        s).unversion =
      missing.foldl
        (fun d p =>
          match dGet parsed p with
          | some v => dSet d p (some v)
          | none => d)
        s.unversion := by
  intro missing
  induction missing with
  | nil => intro s; rfl
  | cons q rest ih =>
      intro s
      rw [List.foldl_cons, List.foldl_cons, ih]
      cases dGet parsed q <;> rfl

lemma baseRecover_image (parsed : List (String × String)) :
    ∀ (missing : List String) (s : BaseState),
      (missing.foldl
        (fun (s : BaseState) p =>
          match dGet parsed p with
          | some v =>
              { s with
                install := dSet s.install p (some v)
                unversion := dSet s.unversion p (some v) }
          | none => s)
        s).image = s.image := by
  intro missing
  induction missing with
  | nil => intro s; rfl
  | cons q rest ih =>
      intro s
      rw [List.foldl_cons, ih]
      cases dGet parsed q <;> rfl

/-- The pointwise value of the sentinel-then-recover fold pair used by the
base Unversion branch: after setting a distinct missing name's value to the
sentinel and then conditionally recording the probe's version, the binding is
exactly `some (dGet r p)`. -/
lemma dGet_sentinel_recover (r : List (String × String))
    (M : List String) (hnd : M.Nodup) (d : List (String × Option String))
    (p : String) (hp : p ∈ M) :
    dGet (M.foldl
      (fun d q =>
        match dGet r q with
        | some v => dSet d q (some v)
        | none => d)
      (M.foldl (fun d q => dSet d q none) d)) p = some (dGet r p) := by
  have hfirst : dGet (M.foldl (fun d q => dSet d q none) d) p = some none :=
    dGet_foldl_mem (fun d q => dSet d q none) (fun q _ => some none)
      (fun d q p2 hne => dGet_dSet_other d none hne)
      (fun d q => dGet_dSet_self d q none) M hnd d p hp
  have hsecond := dGet_foldl_mem
    (fun d q =>
      match dGet r q with
      | some v => dSet d q (some v)
      | none => d)
    (fun q v =>
      match dGet r q with
      | some w => some (some w)
      | none => v)
    (fun d q p2 hne => by
      cases hq : dGet r q with
      | some v =>
          simp only [hq]
          exact dGet_dSet_other d (some v) hne
      | none => simp only [hq])
    (fun d q => by
      cases hq : dGet r q with
      | some v =>
          simp only [hq]
          exact dGet_dSet_self d q (some v)
      | none => simp only [hq])
    M hnd (M.foldl (fun d q => dSet d q none) d) p hp
  rw [hsecond, hfirst]
  cases hp2 : dGet r p <;> simp only [hp2]

lemma baseVerify_unversion_state {render : BaseState → String}
    {listOut : ImageRef → String}
    {parse : List String → Except PyErr (List (String × String))}
    {st st' : BaseState} {b : Bool} {r : List (String × String)}
    (hkn : (dKeys st.install).Nodup)
    (hr : parse (pyLines (listOut ImageRef.pulled)) = .ok r)
    (hmiss : baseMissing render listOut st ≠ [])
    (h : baseVerify render listOut parse .unversion st = .ok (st', b)) :
    b = false ∧
    (∀ p ∈ baseMissing render listOut st,
      dGet st'.install p = some (dGet r p) ∧
      dGet st'.unversion p = some (dGet r p)) ∧
    st'.image ≠ ImageRef.pulled := by
  unfold baseVerify at h
  by_cases hinst : st.install = []
  · rw [if_pos hinst] at h
    cases h
  · rw [if_neg hinst] at h
    simp only [Bind.bind, Except.bind] at h
    rw [if_neg hmiss] at h
    simp only [hr] at h
    cases h
    have hndM : (baseMissing render listOut st).Nodup :=
      List.Nodup.filter _ hkn
    refine ⟨rfl, ?_, ?_⟩
    · intro p hp
      constructor
      · rw [baseRecover_install]
        exact dGet_sentinel_recover r _ hndM _ p hp
      · rw [baseRecover_unversion]
        exact dGet_sentinel_recover r _ hndM _ p hp
    · rw [baseRecover_image]
      intro hc
      cases hc

/-- C2 counterexample: a base-engine Delete call on a state where the missing
name `x` sits in both dicts removes it from `install` only — `unversion`
still holds `x` afterwards, contradicting "removed from both". -/
theorem c2_counterexample :
    baseVerify (fun _ => "FROM c") (fun _ => "") (fun _ => .ok []) .delete
      ⟨[("x", some "1")], [("x", some "2")], .pulled⟩ =
      .ok (⟨[], [("x", some "2")], .built "FROM c"⟩, false) ∧
    "x" ∈ dKeys [("x", (some "2" : Option String))] ∧
    "x" ∉ dKeys ([] : List (String × Option String)) := by decide

/-- C2 (amended): in the Debian-family fallback, every missing name (for a
duplicate-free missing set of `install` keys) is removed from both `install`
and `unversion`, `install` keys become disjoint from the missing set, and
`|install|` decreases by exactly `|missing|`.  In the base engine's Delete
branch, the missing names are removed from `install` only — `unversion` is
left untouched — with the same disjointness and cardinality drop. -/
theorem c2_amended :
    (∀ (exec : String → String) (listOut : ImageRef → String)
        (missing : List String) (st st' : UbuntuState) (b : Bool),
      missing.Nodup → (∀ p ∈ missing, p ∈ dKeys st.install) →
      (dKeys st.install).Nodup →
      ubuntuRunFallback exec listOut missing .delete st = .ok (st', b) →
      (∀ p ∈ missing, p ∉ dKeys st'.install ∧ p ∉ dKeys st'.unversion) ∧
      st'.install.length = st.install.length - missing.length) ∧
    (∀ (render : BaseState → String) (listOut : ImageRef → String)
        (parse : List String → Except PyErr (List (String × String)))
        (st st' : BaseState) (b : Bool),
      (dKeys st.install).Nodup →
      baseVerify render listOut parse .delete st = .ok (st', b) →
      (∀ p ∈ baseMissing render listOut st, p ∉ dKeys st'.install) ∧
      st'.unversion = st.unversion ∧
      st'.install.length =
        st.install.length - (baseMissing render listOut st).length) := by
  constructor
  · intro exec listOut missing st st' b hnd hsub hkn h
    obtain ⟨h1, h2⟩ := ubuntuRunFallback_delete_state hnd hsub h
    refine ⟨?_, ?_⟩
    · intro p hp
      constructor
      · rw [h1]
        exact not_mem_keys_foldl_dPopTry hnd hp
      · rw [h2]
        exact not_mem_keys_foldl_dPopTry hnd hp
    · rw [h1]
      exact length_foldl_dPopTry missing st.install hnd hkn hsub
  · intro render listOut parse st st' b hkn h
    obtain ⟨hu, hnil, hcons⟩ := baseVerify_delete_state hkn h
    by_cases hm : baseMissing render listOut st = []
    · refine ⟨?_, hu, ?_⟩
      · intro p hp
        rw [hm] at hp
        simp at hp
      · rw [hnil hm, hm]
        simp
    · have hndm : (baseMissing render listOut st).Nodup :=
        List.Nodup.filter _ hkn
      have hsubm : ∀ p ∈ baseMissing render listOut st,
          p ∈ dKeys st.install :=
        fun p hp => List.mem_of_mem_filter hp
      refine ⟨?_, hu, ?_⟩
      · intro p hp
        rw [hcons hm]
        exact not_mem_keys_foldl_dPopTry hndm hp
      · rw [hcons hm]
        exact length_foldl_dPopTry _ st.install hndm hkn hsubm

theorem c2_amended_witness :
    ((["x"] : List String).Nodup ∧
      (∀ p ∈ ["x"], p ∈ dKeys [("x", "1")]) ∧
      (dKeys [("x", "1")]).Nodup ∧
      ubuntuRunFallback (fun _ => "E: x") (fun _ => "") ["x"] .delete
        ⟨"ubuntu", "18.04", [("x", "1")], [("x", "1")], [], .pulled⟩ =
        .ok (⟨"ubuntu", "18.04", [("x", "1")], [], [],
          .built
            "FROM ubuntu:18.04\nENV DEBIAN_FRONTEND=noninteractive\nRUN apt-get update\n"⟩,
          false)) ∧
    ((∀ p ∈ ["x"],
        p ∉ dKeys ([] : List (String × String)) ∧
        p ∉ dKeys ([] : List (String × Option String))) ∧
      ([] : List (String × String)).length = [("x", "1")].length - ["x"].length)
    := by
  refine ⟨⟨by decide, by decide, by decide, by decide⟩, ?_⟩
  exact c2_amended.1 (fun _ => "E: x") (fun _ => "") ["x"]
    ⟨"ubuntu", "18.04", [("x", "1")], [("x", "1")], [], .pulled⟩
    ⟨"ubuntu", "18.04", [("x", "1")], [], [],
      .built
        "FROM ubuntu:18.04\nENV DEBIAN_FRONTEND=noninteractive\nRUN apt-get update\n"⟩
    false (by decide) (by decide) (by decide) (by decide)

/-- C3 counterexample: a Partial Delete call CAN raise an exception to the
caller.  When a missing name sits in `unversion` but not in `install`, the
unguarded `del install_packages[pkg]` of the Delete branch raises `KeyError`
instead of returning a missing-set result. -/
theorem c3_counterexample :
    ubuntuVerify (fun _ => "E: Unable to locate package x\n") (fun _ => "")
      .delete
      ⟨"ubuntu", "18.04", [("a", "1"), ("x", "1")], [("a", "1")],
        [("x", none)], .pulled⟩ =
      .error .keyError := by decide

/-- C3 (amended): a Partial verification call returns `False` in every
fallback mode — with the verdict reflecting the pre-fallback state — PROVIDED
the missing names all come from `install` (Debian family) resp. always (base
engine); without that proviso Delete/Unversion can raise `KeyError`. -/
theorem c3_amended :
    (∀ (exec : String → String) (listOut : ImageRef → String)
        (st : UbuntuState),
      (∀ cmd : String,
        (aptMissingPkgs (exec cmd) ≠ [] ∨ aptMissingVers (exec cmd) ≠ []) →
        aptHasErr (exec cmd) = true) →
      (∀ p ∈ dKeys st.unversion, p ∈ dKeys st.all) →
      (∀ p ∈ dKeys st.install, p ∈ dKeys st.all) →
      (ubuntuFirstMissing exec st).Nodup →
      (∀ p ∈ ubuntuFirstMissing exec st, p ∈ dKeys st.install) →
      ubuntuFirstMissing exec st ≠ [] →
      ∀ mode, ∃ st',
        ubuntuVerify exec listOut mode st = .ok (st', false)) ∧
    (∀ (render : BaseState → String) (listOut : ImageRef → String)
        (parse : List String → Except PyErr (List (String × String)))
        (st : BaseState),
      st.install ≠ [] → (dKeys st.install).Nodup →
      (∃ r, parse (pyLines (listOut ImageRef.pulled)) = .ok r) →
      baseMissing render listOut st ≠ [] →
      ∀ mode, ∃ st',
        baseVerify render listOut parse mode st = .ok (st', false)) :=
  ⟨fun _ _ _ hma hallu halli hnd hsub hp mode =>
      ubuntuVerify_partial_false hma hallu halli hnd hsub hp mode,
    fun _ _ _ _ hne hkn hparse hmiss mode =>
      baseVerify_partial_false hne hkn hparse hmiss mode⟩

theorem c3_amended_witness :
    ((∀ cmd : String,
        (aptMissingPkgs ((fun _ => "E: Unable to locate package x\n") cmd)
            ≠ [] ∨
          aptMissingVers ((fun _ => "E: Unable to locate package x\n") cmd)
            ≠ []) →
        aptHasErr ((fun _ => "E: Unable to locate package x\n") cmd)
          = true) ∧
      ubuntuFirstMissing (fun _ => "E: Unable to locate package x\n")
        ⟨"ubuntu", "18.04", [("x", "1")], [("x", "1")], [], .pulled⟩ ≠ []) ∧
    (∃ st',
      ubuntuVerify (fun _ => "E: Unable to locate package x\n") (fun _ => "")
        .delete ⟨"ubuntu", "18.04", [("x", "1")], [("x", "1")], [], .pulled⟩ =
        .ok (st', false)) := by
  refine ⟨⟨fun cmd _ =>
    show aptHasErr "E: Unable to locate package x\n" = true by decide,
    by decide⟩, ?_⟩
  exact c3_amended.1 (fun _ => "E: Unable to locate package x\n")
    (fun _ => "")
    ⟨"ubuntu", "18.04", [("x", "1")], [("x", "1")], [], .pulled⟩
    (fun cmd _ =>
      show aptHasErr "E: Unable to locate package x\n" = true by decide)
    (fun p hp => (List.not_mem_nil p hp).elim)
    (fun p hp => hp)
    (by decide) (by decide) (by decide) .delete

/-- C4 counterexample: a Partial Unversion call on the Debian-family engine
deletes the missing name from `install` instead of recording the
unconstrained sentinel there — afterwards `x` has no binding at all in
`install`, and the sentinel sits only in `unversion`. -/
theorem c4_counterexample :
    ubuntuVerify (fun _ => "E: Unable to locate package x\n") (fun _ => "")
      .unversion
      ⟨"ubuntu", "18.04", [("x", "1")], [("x", "1")], [], .pulled⟩ =
      .ok (⟨"ubuntu", "18.04", [("x", "1")], [], [("x", none)],
        .built
          "FROM ubuntu:18.04\nENV DEBIAN_FRONTEND=noninteractive\nRUN apt-get update\n"⟩,
        false) ∧
    "x" ∉ dKeys ([] : List (String × String)) ∧
    dGet [("x", (none : Option String))] "x" = some none := by decide

/-- C4 (amended): in a Partial Unversion call, the Debian-family fallback
removes each missing name from `install` (no sentinel there), records the
sentinel under the name in `unversion`, and re-probes the image built from
the update-only prelude.  The base engine does set the sentinel and record
the probed substitute version in both maps, but the re-probe parses the
listing of the *pulled base image*, not of the rebuilt one. -/
theorem c4_amended :
    (∀ (exec : String → String) (listOut : ImageRef → String)
        (missing : List String) (st st' : UbuntuState) (b : Bool),
      missing.Nodup → (∀ p ∈ missing, p ∈ dKeys st.install) →
      ubuntuRunFallback exec listOut missing .unversion st = .ok (st', b) →
      (∀ p ∈ missing,
        p ∉ dKeys st'.install ∧ p ∈ dKeys st'.unversion) ∧
      st'.image = ImageRef.built (ubuntuPrelude st)) ∧
    (∀ (render : BaseState → String) (listOut : ImageRef → String)
        (parse : List String → Except PyErr (List (String × String)))
        (st st' : BaseState) (b : Bool) (r : List (String × String)),
      (dKeys st.install).Nodup →
      parse (pyLines (listOut ImageRef.pulled)) = .ok r →
      baseMissing render listOut st ≠ [] →
      baseVerify render listOut parse .unversion st = .ok (st', b) →
      b = false ∧
      (∀ p ∈ baseMissing render listOut st,
        dGet st'.install p = some (dGet r p) ∧
        dGet st'.unversion p = some (dGet r p)) ∧
      st'.image ≠ ImageRef.pulled) := by
  constructor
  · intro exec listOut missing st st' b hnd hsub h
    obtain ⟨h1, h2, h3⟩ := ubuntuRunFallback_unversion_state hnd hsub h
    refine ⟨?_, h3⟩
    intro p hp
    constructor
    · rw [h1]
      exact not_mem_keys_foldl_dPopTry hnd hp
    · rw [h2]
      exact (mem_keys_foldl_dSet none missing st.unversion p).mpr (Or.inr hp)
  · intro render listOut parse st st' b r hkn hr hmiss h
    exact baseVerify_unversion_state hkn hr hmiss h

theorem c4_amended_witness :
    ((["x"] : List String).Nodup ∧
      (∀ p ∈ ["x"], p ∈ dKeys [("x", "1")]) ∧
      ubuntuRunFallback (fun _ => "E: x") (fun _ => "") ["x"] .unversion
        ⟨"ubuntu", "18.04", [("x", "1")], [("x", "1")], [], .pulled⟩ =
        .ok (⟨"ubuntu", "18.04", [("x", "1")], [], [("x", none)],
          .built
            "FROM ubuntu:18.04\nENV DEBIAN_FRONTEND=noninteractive\nRUN apt-get update\n"⟩,
          false)) ∧
    ((∀ p ∈ ["x"],
        p ∉ dKeys ([] : List (String × String)) ∧
        p ∈ dKeys [("x", (none : Option String))]) ∧
      (ImageRef.built
          "FROM ubuntu:18.04\nENV DEBIAN_FRONTEND=noninteractive\nRUN apt-get update\n"
        : ImageRef) =
        ImageRef.built (ubuntuPrelude
          ⟨"ubuntu", "18.04", [("x", "1")], [("x", "1")], [], .pulled⟩)) := by
  refine ⟨⟨by decide, by decide, by decide⟩, ?_⟩
  exact c4_amended.1 (fun _ => "E: x") (fun _ => "") ["x"]
    ⟨"ubuntu", "18.04", [("x", "1")], [("x", "1")], [], .pulled⟩
    ⟨"ubuntu", "18.04", [("x", "1")], [], [("x", none)],
      .built
        "FROM ubuntu:18.04\nENV DEBIAN_FRONTEND=noninteractive\nRUN apt-get update\n"⟩
    false (by decide) (by decide) (by decide)
